import Mathlib

/-!
# IDAExecFunctionsImporter: `ida_string`, `ida_file` and the name-applying loop

A shallow embedding of `ida_string.h`, `ida_file.h` and `plugin_ctx_t::run`
(`IDAExecFunctions64/Main.cpp`).

Conventions of the embedding (x86-64, the plugin's target):

* a byte is a `Nat` below 256, a pointer is a `Nat` below `2 ^ 64`, `nullptr` is `0`;
* `int` is an `Int` wrapped to 32 bits by `to_int32`, `size_t` and `uintptr_t`
  arithmetic is taken modulo `2 ^ 64`;
* an `ida_string_base<char>` object is its 16 bytes.  The anonymous union of the
  source overlays, all at offset 0, the two pointers `buffer_start`, `buffer_end`
  (little-endian), the array `inline_buffer[0xF]`, and the three bit-fields
  `inline_length_inverse : 4`, `reserved : 3`, `use_allocated_buffer : 1`.  The
  bit-fields are direct members of the union, so each of them starts at bit 0 of
  byte 0 (bit-fields are allocated from the least significant bit);
* the heap is a list of live blocks with a bump allocator and a trace of the
  allocator calls.
-/

namespace IDAExec

/-! ## Bytes and machine integers -/

/-- Little-endian encoding of `n` in `k` bytes. -/
def le_encode : Nat → Nat → List Nat
  | 0, _ => []
  | k + 1, n => (n % 256) :: le_encode k (n / 256)

/-- Little-endian value of a byte sequence. -/
def le_decode : List Nat → Nat
  | [] => 0
  | b :: bs => b + 256 * le_decode bs

/-- Conversion of an integer to the 32-bit two's complement `int`. -/
def to_int32 (n : Int) : Int :=
  if n % 4294967296 < 2147483648 then n % 4294967296 else n % 4294967296 - 4294967296

/-- Conversion of an integer to the 64-bit unsigned `size_t` / `uintptr_t`. -/
def size_t (n : Int) : Nat := (n % 18446744073709551616).toNat

/-- Overwrite the bytes of `dst` from offset `off` on with `src`; the length of `dst`
is kept (what would fall outside `dst` is dropped). -/
def poke (dst : List Nat) (off : Nat) (src : List Nat) : List Nat :=
  (dst.take off ++ src ++ dst.drop (off + src.length)).take dst.length

/-- The C string read from a memory area: the bytes before the first zero byte, or
`none` when the area holds no zero byte (the read would leave the area). -/
def read_cstr (bytes : List Nat) : Option (List Nat) :=
  if 0 ∈ bytes then some (bytes.takeWhile (fun b => b ≠ 0)) else none

/-- The IDA SDK function `qstrlen` (`strlen`): the number of bytes before the first zero byte. -/
def qstrlen (bytes : List Nat) : Nat := (bytes.takeWhile (fun b => b ≠ 0)).length

/-- The IDA SDK function `qstrcmp` (`strcmp`) on two memory areas: walks both until the first
difference or a common zero byte; `none` when the walk leaves an area. -/
def qstrcmp : List Nat → List Nat → Option Int
  | a :: as, b :: bs =>
    if a ≠ b then some (if a < b then -1 else 1)
    else if a = 0 then some 0
    else qstrcmp as bs
  | _, _ => none

/-! ## The heap -/

/-- One call of the allocator. -/
inductive heap_event where
  | alloc (addr size : Nat)
  | realloc (old addr size : Nat)
  | free (addr : Nat)
  deriving DecidableEq

/-- The heap: the live blocks (base address, contents), the next fresh address, the
value of an uninitialised byte, and the trace of allocator calls. -/
structure Heap where
  blocks : List (Nat × List Nat)
  next : Nat
  junk : Nat
  log : List heap_event
  deriving DecidableEq

/-- Contents of the live block whose base address is `p`. -/
def Heap.load (h : Heap) (p : Nat) : Option (List Nat) := h.blocks.lookup p

/-- Write `vals` at offset `off` of the block whose base address is `p`. -/
def Heap.store (h : Heap) (p : Nat) (off : Int) (vals : List Nat) : Heap :=
  if off < 0 then h
  else { h with
    blocks := h.blocks.map (fun b => if b.1 = p then (b.1, poke b.2 off.toNat vals) else b) }

/-- The IDA SDK function `qalloc`: a fresh block of `size` uninitialised bytes. -/
def qalloc (h : Heap) (size : Nat) : Nat × Heap :=
  (h.next,
   { h with
     blocks := (h.next, List.replicate size h.junk) :: h.blocks,
     next := h.next + size + 1,
     log := h.log ++ [heap_event.alloc h.next size] })

/-- The IDA SDK function `qfree`: releases the block at `p`; `qfree(nullptr)` does nothing. -/
def qfree (h : Heap) (p : Nat) : Heap :=
  if p = 0 then h
  else { h with
    blocks := h.blocks.filter (fun b => b.1 ≠ p),
    log := h.log ++ [heap_event.free p] }

/-- The IDA SDK function `qrealloc`: moves the block at `p` to a fresh block of `size` bytes,
keeping the common initial part; `qrealloc(nullptr, n)` is `qalloc(n)`. -/
def qrealloc (h : Heap) (p : Nat) (size : Nat) : Nat × Heap :=
  if p = 0 then qalloc h size
  else
    let old := (h.load p).getD []
    (h.next,
     { h with
       blocks := (h.next, (old ++ List.replicate size h.junk).take size)
                   :: h.blocks.filter (fun b => b.1 ≠ p),
       next := h.next + size + 1,
       log := h.log ++ [heap_event.realloc p h.next size] })

/-- A `const char*` value: a pointer to a heap block base (`heap 0` is `nullptr`), or
a pointer to memory outside the heap (the string object itself, static or stack
memory) given by the bytes readable from it. -/
inductive char_ptr where
  | mem (bytes : List Nat)
  | heap (addr : Nat)
  deriving DecidableEq

/-- Null test of a pointer. -/
def char_ptr.is_null : char_ptr → Bool
  | char_ptr.heap 0 => true
  | _ => false

/-- The memory area readable from a pointer; `none` for `nullptr` and for an address
that is no live block. -/
def char_ptr.deref (h : Heap) : char_ptr → Option (List Nat)
  | char_ptr.mem bytes => some bytes
  | char_ptr.heap a => if a = 0 then none else h.load a

/-- A non-null `const char*` argument: its address and the bytes readable from it. -/
structure c_str_arg where
  addr : Nat
  bytes : List Nat
  deriving DecidableEq

/-! ## `ida_string_base<char>` (`ida_string`) -/

/-- The object: the two pointer members of the union; the other members are views
of the same 16 bytes (`raw`). -/
structure ida_string_base where
  buffer_start : Nat
  buffer_end : Nat
  deriving DecidableEq

namespace ida_string_base

/-- The `char_size` constant, `sizeof(char)`. -/
def char_size : Int := 1

/-- The `use_allocated_buffer_mask` constant. -/
def use_allocated_buffer_mask : Nat := 0x8000000000000000

/-- The 16 bytes of the object. -/
def raw (s : ida_string_base) : List Nat :=
  le_encode 8 s.buffer_start ++ le_encode 8 s.buffer_end

/-- The object whose 16 bytes are `bs`. -/
def of_raw (bs : List Nat) : ida_string_base :=
  { buffer_start := le_decode (bs.take 8), buffer_end := le_decode ((bs.drop 8).take 8) }

/-- The union member `inline_buffer[0xF]`. -/
def inline_buffer (s : ida_string_base) : List Nat := (raw s).take 15

/-- The union member `inline_length_inverse : 4`: the low four bits of byte 0. -/
def inline_length_inverse (s : ida_string_base) : Nat := (raw s).headD 0 % 16

/-- Assignment to `inline_length_inverse` (the value is truncated to four bits). -/
def set_inline_length_inverse (s : ida_string_base) (v : Int) : ida_string_base :=
  of_raw (poke (raw s) 0 [(raw s).headD 0 / 16 * 16 + (v % 16).toNat])

/-- Assignment to `use_allocated_buffer : 1`: bit 0 of byte 0. -/
def set_use_allocated_buffer (s : ida_string_base) (v : Bool) : ida_string_base :=
  of_raw (poke (raw s) 0 [(raw s).headD 0 / 2 * 2 + (if v then 1 else 0)])

/-- Source: `mark_as_allocated`. -/
def mark_as_allocated (s : ida_string_base) : ida_string_base :=
  { s with buffer_end := s.buffer_end ||| use_allocated_buffer_mask }

/-- Source: `is_length_suitable_for_inline`. -/
def is_length_suitable_for_inline (len : Int) : Bool :=
  decide (to_int32 (len * char_size) < 0x10)

/-- Source: `is_inline_string`. -/
def is_inline_string (s : ida_string_base) : Bool :=
  !(decide (s.buffer_end &&& use_allocated_buffer_mask ≠ 0))

/-- Source: `get_inline_length_bytes`. -/
def get_inline_length_bytes (s : ida_string_base) : Int :=
  0x10 - (inline_length_inverse s : Int)

/-- Source: `get_buffer_start`. -/
def get_buffer_start (s : ida_string_base) : Nat := s.buffer_start

/-- Source: `get_buffer_end`. -/
def get_buffer_end (s : ida_string_base) : Nat :=
  s.buffer_end &&& (0xFFFFFFFFFFFFFFFF - use_allocated_buffer_mask)

/-- Source: `length_bytes`; the pointer difference is `start - end` as in the source. -/
def length_bytes (s : ida_string_base) : Int :=
  if is_inline_string s then get_inline_length_bytes s
  else to_int32 (size_t ((get_buffer_start s : Int) - (get_buffer_end s : Int)))

/-- Source: `length`. -/
def length (s : ida_string_base) : Int :=
  if length_bytes s ≤ 0 then 0 else length_bytes s - 1

/-- Source: `is_empty`. -/
def is_empty (s : ida_string_base) : Bool := decide (length s = 0)

/-- Source: `c_str`; for an inline string the pointer goes to the object itself. -/
def c_str (s : ida_string_base) : char_ptr :=
  if is_inline_string s then char_ptr.mem (raw s) else char_ptr.heap s.buffer_start

/-- Source: default constructor. -/
def construct : ida_string_base :=
  mark_as_allocated { buffer_start := 0, buffer_end := 0 }

/-- Source: `place_string_inline`; `string` holds the bytes readable from the source
pointer. -/
def place_string_inline (_s : ida_string_base) (string : List Nat) (len : Int) :
    ida_string_base :=
  let s : ida_string_base := { buffer_start := 0, buffer_end := 0 }
  let s := set_inline_length_inverse s (0x10 - len)
  let s := set_use_allocated_buffer s false
  of_raw (poke (raw s) 0 (string.take (size_t (len * char_size))))

/-- Source: `fit_outline_buffer`. -/
def fit_outline_buffer (s : ida_string_base) (h : Heap) (len : Int) :
    ida_string_base × Heap :=
  let length_with_null_terminator : Int := to_int32 (len + 1)
  let r := if is_empty s || is_inline_string s
    then qalloc h (size_t length_with_null_terminator)
    else qrealloc h s.buffer_start (size_t length_with_null_terminator)
  let s := { s with buffer_start := r.1 }
  let s := { s with buffer_end := size_t ((s.buffer_start : Int) + length_with_null_terminator) }
  let h := r.2.store s.buffer_start len [0]
  (mark_as_allocated s, h)

/-- Source: `allocate_outline_string`. -/
def allocate_outline_string (s : ida_string_base) (h : Heap) (string : List Nat)
    (len : Int) : ida_string_base × Heap :=
  let r := fit_outline_buffer s h len
  (r.1, r.2.store r.1.buffer_start 0 (string.take (size_t (len * char_size))))

/-- Source: `takeover_outline_string`; `string` is the address handed over. -/
def takeover_outline_string (s : ida_string_base) (string : Nat) (len : Int) :
    ida_string_base :=
  let length_with_null_terminator : Int := to_int32 (len + 1)
  let s := { s with buffer_start := string }
  let s := { s with buffer_end := size_t ((string : Int) + length_with_null_terminator) }
  mark_as_allocated s

/-- Source: `cleanup_self` (also the destructor). -/
def cleanup_self (s : ida_string_base) (h : Heap) : ida_string_base × Heap :=
  if is_inline_string s then (s, h)
  else ({ buffer_start := 0, buffer_end := 0 }, qfree h s.buffer_start)

/-- Source: `ida_string_base(const char_type* str, bool take_ownership)`; `none` is a
null `str`. -/
def construct_from (h : Heap) (str : Option c_str_arg) (take_ownership : Bool) :
    ida_string_base × Heap :=
  let self : ida_string_base := { buffer_start := 0, buffer_end := 0 }
  match str with
  | none => (self, h)
  | some str =>
    let length : Int := to_int32 (qstrlen str.bytes)
    if take_ownership then (takeover_outline_string self str.addr length, h)
    else if is_length_suitable_for_inline length then
      (place_string_inline self str.bytes length, h)
    else allocate_outline_string self h str.bytes length

/-- Source: move constructor; returns the new object and the moved-from `other`. -/
def move_construct (other : ida_string_base) : ida_string_base × ida_string_base :=
  ({ buffer_start := other.buffer_start, buffer_end := other.buffer_end },
   { buffer_start := 0, buffer_end := 0 })

/-- Source: copy constructor.  The source passes `*this` and `other` where pointers
are expected: the inline branch is a copy of the 16 bytes of `other`, and in the
outline branch `other` converts through `operator const char_type*`, that is
`other.c_str()`. -/
def copy_construct (other : ida_string_base) (h : Heap) : ida_string_base × Heap :=
  let self : ida_string_base := { buffer_start := 0, buffer_end := 0 }
  if is_inline_string other then (other, h)
  else allocate_outline_string self h (((c_str other).deref h).getD []) (length other)

/-- Source: `operator=(const char* string)`. -/
def assign_from (s : ida_string_base) (h : Heap) (string : List Nat) :
    ida_string_base × Heap :=
  let r := cleanup_self s h
  let length : Int := to_int32 (qstrlen string)
  if is_length_suitable_for_inline length then
    (place_string_inline r.1 string length, r.2)
  else allocate_outline_string r.1 r.2 string length

/-- Source: `operator=(ida_string_base&& other)`; returns the assigned object, the
moved-from `other` and the heap. -/
def move_assign (s other : ida_string_base) (h : Heap) :
    ida_string_base × ida_string_base × Heap :=
  let r := cleanup_self s h
  (other, { buffer_start := 0, buffer_end := 0 }, r.2)

/-- Source: `operator==`; `none` when `qstrcmp` is handed a null or unterminated
area. -/
def eq (a b : ida_string_base) (h : Heap) : Option Bool :=
  if length a = length b then
    match (c_str a).deref h, (c_str b).deref h with
    | some va, some vb => (qstrcmp va vb).map (fun c => decide (c = 0))
    | _, _ => none
  else some false

/-- Source: `buffer`; returns the pointer, the object and the heap. -/
def buffer (s : ida_string_base) (h : Heap) (required_buffer_size : Int) :
    char_ptr × ida_string_base × Heap :=
  let r := if length s < required_buffer_size
    then fit_outline_buffer s h required_buffer_size else (s, h)
  (c_str r.1, r.1, r.2)

end ida_string_base

/-! ## `ida_file` -/

/-- An open `FILE*`: the bytes of the file and the read cursor of the stream. -/
structure FILE where
  data : List Nat
  cursor : Nat
  deriving DecidableEq

/-- The IDA SDK function `qfread` (`fread`): reads up to `n` bytes at the cursor of the stream and
advances the cursor by the number of bytes read; returns the bytes read. -/
def qfread (file : Option FILE) (n : Nat) : List Nat × Option FILE :=
  match file with
  | none => ([], none)
  | some f =>
    ((f.data.drop f.cursor).take n,
     some { f with cursor := f.cursor + ((f.data.drop f.cursor).take n).length })

/-- The `fopenRT`, `fopenRB`, `fopenWT`, `fopenWB` functions of the IDA SDK: the bytes
of the stream opened for a file name, or `none` when no handle is returned. -/
structure disk where
  fopenRT : List Nat → Option (List Nat)
  fopenRB : List Nat → Option (List Nat)
  fopenWT : List Nat → Option (List Nat)
  fopenWB : List Nat → Option (List Nat)

/-- Source: `ida_file::open_mode`. -/
inductive open_mode where
  | none
  | read_only
  | binary_read_only
  | read_write
  | binary_read_write
  deriving DecidableEq

/-- The value of an enumerator. -/
def open_mode.toNat : open_mode → Nat
  | open_mode.none => 0
  | open_mode.read_only => 1
  | open_mode.binary_read_only => 2
  | open_mode.read_write => 3
  | open_mode.binary_read_write => 4

/-- Source: the data members of `ida_file`. -/
structure ida_file where
  file : Option FILE
  mode : open_mode
  pos : Int
  size : Int
  deriving DecidableEq

namespace ida_file

/-- Source: default constructor. -/
def construct : ida_file :=
  { file := Option.none, mode := open_mode.none, pos := 0, size := 0 }

/-- Source: `is_open`. -/
def is_open (f : ida_file) : Bool :=
  f.file.isSome && decide (f.mode ≠ open_mode.none)

/-- Source: `can_write`. -/
def can_write (f : ida_file) : Bool :=
  is_open f && decide (open_mode.read_write.toNat ≤ f.mode.toNat)

/-- Source: `close_file`. -/
def close_file (f : ida_file) : ida_file :=
  { f with file := Option.none, mode := open_mode.none, pos := 0 }

/-- Source: `open_file`; `file_name` is the C string read from the argument (`none`
when it cannot be read).  Returns `file != nullptr` and the object. -/
def open_file (d : disk) (f : ida_file) (file_name : Option (List Nat))
    (new_mode : open_mode) : Bool × ida_file :=
  let f := if is_open f then close_file f else f
  let f := { f with mode := new_mode }
  let stream (fopen : List Nat → Option (List Nat)) : Option FILE :=
    (file_name.bind fopen).map (fun data => { data := data, cursor := 0 })
  let f := match f.mode with
    | open_mode.read_only => { f with file := stream d.fopenRT }
    | open_mode.binary_read_only => { f with file := stream d.fopenRB }
    | open_mode.read_write => { f with file := stream d.fopenWT }
    | open_mode.binary_read_write => { f with file := stream d.fopenWB }
    | open_mode.none => f
  (f.file.isSome, f)

/-- Source: `ida_file(const char* file_path, open_mode new_mode)`. -/
def construct_from (d : disk) (h : Heap) (file_path : char_ptr) (new_mode : open_mode) :
    ida_file :=
  let self : ida_file := { file := Option.none, mode := new_mode, pos := 0, size := 0 }
  if file_path.is_null then self
  else
    let r := open_file d self ((file_path.deref h).bind read_cstr) new_mode
    if r.1 then
      { r.2 with
        file := r.2.file.map (fun f => { f with cursor := 0 }),
        size := to_int32 ((r.2.file.map (fun f => f.data.length)).getD 0) }
    else r.2

/-- Source: `T read()` for a `T` of `w` bytes; `ret_value` is the uninitialised local
the bytes are read into.  Returns the value and the object. -/
def read (f : ida_file) (w : Nat) (ret_value : List Nat) : Nat × ida_file :=
  let f := { f with pos := to_int32 (f.pos + w) }
  let r := qfread f.file w
  (le_decode (poke ret_value 0 r.1), { f with file := r.2 })

/-- Source: `read_string`; the bytes read are written through the pointer returned by
`ret.buffer(length)`.  Returns the string, the object and the heap. -/
def read_string (f : ida_file) (h : Heap) (length : Int) :
    ida_string_base × ida_file × Heap :=
  let ret := ida_string_base.construct
  let f := { f with pos := to_int32 (f.pos + length) }
  let b := ret.buffer h length
  let r := qfread f.file (size_t length)
  let f := { f with file := r.2 }
  match b.1 with
  | char_ptr.mem bytes => (ida_string_base.of_raw (poke bytes 0 r.1), f, b.2.2)
  | char_ptr.heap a => (b.2.1, f, b.2.2.store a 0 r.1)

/-- Source: `can_read_more`. -/
def can_read_more (f : ida_file) : Bool := decide (f.pos < f.size)

end ida_file

/-! ## `plugin_ctx_t::run` -/

/-- What `run` takes from the host: the answer of `ask_file` (`none` for `nullptr`),
the files of the disk, the result of `get_imagebase`, and the value of the
uninitialised bytes of a local variable. -/
structure host where
  ask_file : Option c_str_arg
  files : disk
  get_imagebase : Nat
  uninit : Nat

/-- One call `set_name(ea, name)`: the address and the C string read from `name`,
`none` when `name` is `nullptr` or no zero-terminated area. -/
abbrev name_call := Nat × Option (List Nat)

/-- Source: the `while (selected_file.can_read_more())` loop of `run`, with `fuel`
bounding the number of iterations; `none` when the fuel runs out. -/
def run_loop (image_base uninit : Nat) :
    Nat → ida_file → Heap → List name_call → Option (List name_call × ida_file × Heap)
  | 0, f, h, calls => if f.can_read_more then Option.none else some (calls, f, h)
  | fuel + 1, f, h, calls =>
    if f.can_read_more then
      let offset := f.read 4 (List.replicate 4 uninit)
      let name_len := offset.2.read 2 (List.replicate 2 uninit)
      let name_string := name_len.2.read_string h name_len.1
      let call : name_call :=
        ((image_base + offset.1) % 18446744073709551616,
         (name_string.1.c_str.deref name_string.2.2).bind read_cstr)
      let h := (name_string.1.cleanup_self name_string.2.2).2
      run_loop image_base uninit fuel name_string.2.1 h (calls ++ [call])
    else some (calls, f, h)

/-- Source: `plugin_ctx_t::run`; returns the calls of `set_name` in order and the heap
after the locals are destroyed. -/
def run (env : host) (h : Heap) (fuel : Nat) : Option (List name_call × Heap) :=
  let result := ida_string_base.construct_from h env.ask_file false
  let selected_file :=
    ida_file.construct_from env.files result.2 result.1.c_str open_mode.binary_read_only
  let image_base := env.get_imagebase
  let r := if selected_file.is_open
    then run_loop image_base env.uninit fuel selected_file result.2 []
    else some ([], selected_file, result.2)
  r.map (fun r => (r.1, (result.1.cleanup_self r.2.2).2))

/-! ## Auxiliary definitions for the statements -/

/-- A well-formed heap: the next fresh address is not null and lies above the base of
every live block. -/
def Heap.wf (h : Heap) : Prop := 0 < h.next ∧ ∀ b ∈ h.blocks, b.1 < h.next

instance (h : Heap) : Decidable h.wf :=
  inferInstanceAs (Decidable (0 < h.next ∧ ∀ b ∈ h.blocks, b.1 < h.next))

/-- The 16 bytes of an inline string with payload `s`: the payload followed by zero
bytes. -/
def ida_string_base.inline_bytes (s : List Nat) : List Nat :=
  s ++ List.replicate (16 - s.length) 0

/-- A byte sequence that can be the payload of a C string: bytes, none of them zero. -/
def is_payload (s : List Nat) : Prop := ∀ b ∈ s, b ≠ 0 ∧ b < 256

instance (s : List Nat) : Decidable (is_payload s) :=
  inferInstanceAs (Decidable (∀ b ∈ s, b ≠ 0 ∧ b < 256))

/-- One record of the mapping file: the offset and the name bytes. -/
structure record where
  offset : Nat
  name : List Nat
  deriving DecidableEq

/-- The encoding of a record in the file: 4-byte little-endian offset, 2-byte
little-endian name length, name bytes. -/
def encode_record (r : record) : List Nat :=
  le_encode 4 r.offset ++ le_encode 2 r.name.length ++ r.name

/-- The file made of the encodings of the records, in order. -/
def encode_records : List record → List Nat
  | [] => []
  | r :: rs => encode_record r ++ encode_records rs

/-- An empty heap whose first block will be at address `0x1000`, used in examples. -/
def heap0 : Heap := { blocks := [], next := 4096, junk := 205, log := [] }

/-- The `ida_file` object of a stream opened with `binary_read_only` on the bytes
`data`, after `k` bytes have been read. -/
def stream_at (data : List Nat) (k : Nat) : ida_file :=
  { file := some { data := data, cursor := k },
    mode := open_mode.binary_read_only,
    pos := k,
    size := data.length }

/-- The call of `set_name` the spec expects for a record at image base `base`. -/
def expected_call (base : Nat) (r : record) : name_call :=
  ((base + r.offset) % 18446744073709551616, some r.name)

/-- A record the format can hold, with a name that is a non-empty C string payload. -/
def named_record (r : record) : Prop :=
  r.offset < 4294967296 ∧ 1 ≤ r.name.length ∧ r.name.length < 65536 ∧ is_payload r.name

instance (r : record) : Decidable (named_record r) :=
  inferInstanceAs (Decidable (_ ∧ _ ∧ _ ∧ _))

/-- A host, used in examples: the file picker answers `path`, the only file that opens
is `path`, with the bytes `data`, and the image base is `base`. -/
def host_with (path data : List Nat) (base : Nat) : host :=
  { ask_file := some { addr := 256, bytes := path ++ [0] },
    files :=
      { fopenRT := fun _ => Option.none,
        fopenRB := fun p => if p = path then some data else Option.none,
        fopenWT := fun _ => Option.none,
        fopenWB := fun _ => Option.none },
    get_imagebase := base,
    uninit := 204 }

/-- The view `c_str()` gives is usable: the pointer is not null, the area it points
to is live, and the area holds a zero byte. -/
def zero_terminated (h : Heap) (s : ida_string_base) : Bool :=
  match s.c_str.deref h with
  | some v => decide (0 ∈ v)
  | Option.none => false

/-- The states of one `ida_string` object, with the heap at that time, that the public
operations produce: the constructors, the moves, assignment from a borrowed sequence,
`buffer`, and `ida_file::read_string`.  The side conditions say that the heap is
well formed with room below `2 ^ 63`, that lengths fit in `int`, that a borrowed or owned
argument is zero terminated, and that the two objects of a move assignment do not share
a buffer. -/
inductive reachable : Heap → ida_string_base → Prop
  | default_constructed (h : Heap) : reachable h ida_string_base.construct
  | from_null (h : Heap) (take_ownership : Bool) :
      reachable h (ida_string_base.construct_from h Option.none take_ownership).1
  | from_borrowed (h : Heap) (addr : Nat) (s rest : List Nat) :
      is_payload s → s.length + 1 < 2147483648 → h.wf → h.next + s.length + 1 < 2 ^ 63 →
      reachable (ida_string_base.construct_from h (some { addr := addr, bytes := s ++ 0 :: rest }) false).2
        (ida_string_base.construct_from h (some { addr := addr, bytes := s ++ 0 :: rest }) false).1
  | from_owned (h : Heap) (p : Nat) (s rest : List Nat) :
      p ≠ 0 → h.load p = some (s ++ 0 :: rest) →
      reachable h (ida_string_base.construct_from h (some { addr := p, bytes := s ++ 0 :: rest }) true).1
  | moved_to (h : Heap) (x : ida_string_base) :
      reachable h x → reachable h (ida_string_base.move_construct x).1
  | moved_from (h : Heap) (x : ida_string_base) :
      reachable h x → reachable h (ida_string_base.move_construct x).2
  | move_assigned_to (h : Heap) (x d : ida_string_base) :
      reachable h x → reachable h d →
      (d.is_inline_string = true ∨ x.is_inline_string = true
        ∨ d.buffer_start ≠ x.buffer_start) →
      reachable (ida_string_base.move_assign d x h).2.2 (ida_string_base.move_assign d x h).1
  | move_assigned_from (h : Heap) (x d : ida_string_base) :
      reachable h x → reachable h d →
      reachable (ida_string_base.move_assign d x h).2.2 (ida_string_base.move_assign d x h).2.1
  | assigned (h : Heap) (d : ida_string_base) (s rest : List Nat) :
      reachable h d →
      is_payload s → s.length + 1 < 2147483648 → h.wf → h.next + s.length + 1 < 2 ^ 63 →
      reachable (ida_string_base.assign_from d h (s ++ 0 :: rest)).2 (ida_string_base.assign_from d h (s ++ 0 :: rest)).1
  | buffer_called (h : Heap) (x : ida_string_base) (n : Int) :
      reachable h x →
      n + 1 < 2147483648 → h.wf → (h.next : Int) + n + 1 < 2 ^ 63 →
      reachable (ida_string_base.buffer x h n).2.2 (ida_string_base.buffer x h n).2.1
  | string_read (f : ida_file) (h : Heap) (n : Int) :
      n + 1 < 2147483648 → h.wf → (h.next : Int) + n + 1 < 2 ^ 63 →
      reachable (f.read_string h n).2.2 (f.read_string h n).1

/-- One read call on an `ida_file`: `read<T>()` for a `T` of `w` bytes, or
`read_string(len)`. -/
inductive read_call where
  | scalar (w : Nat)
  | string (len : Nat)
  deriving DecidableEq

/-- The number of bytes a read call consumes. -/
def read_call.bytes : read_call → Nat
  | read_call.scalar w => w
  | read_call.string len => len

/-- The number of bytes a sequence of read calls consumes. -/
def consumed : List read_call → Nat
  | [] => 0
  | c :: cs => c.bytes + consumed cs

/-- The object and the heap after a sequence of read calls, in order; `uninit` is the
value of the uninitialised bytes of the local a scalar is read into. -/
def do_reads (uninit : Nat) : List read_call → ida_file × Heap → ida_file × Heap
  | [], s => s
  | read_call.scalar w :: cs, s =>
    do_reads uninit cs ((s.1.read w (List.replicate w uninit)).2, s.2)
  | read_call.string len :: cs, s =>
    do_reads uninit cs ((s.1.read_string s.2 len).2.1, (s.1.read_string s.2 len).2.2)

/-- Source: the body of the `while` loop of `run`: one iteration, from the file object,
the heap and the calls of `set_name` made so far. -/
def loop_body (image_base uninit : Nat) (s : ida_file × Heap × List name_call) :
    ida_file × Heap × List name_call :=
  let offset := s.1.read 4 (List.replicate 4 uninit)
  let name_len := offset.2.read 2 (List.replicate 2 uninit)
  let name_string := name_len.2.read_string s.2.1 name_len.1
  let call : name_call :=
    ((image_base + offset.1) % 18446744073709551616,
     (name_string.1.c_str.deref name_string.2.2).bind read_cstr)
  let h := (name_string.1.cleanup_self name_string.2.2).2
  (name_string.2.1, h, s.2.2 ++ [call])

/-- A disk, used in examples: the files that open with `fopenRB`, by name. -/
def disk_of (files : List (List Nat × List Nat)) : disk :=
  { fopenRT := fun _ => Option.none,
    fopenRB := fun p => files.lookup p,
    fopenWT := fun _ => Option.none,
    fopenWB := fun _ => Option.none }

/-- Every byte of the stream behind a handle is below 256. -/
def stream_bytes (file : Option FILE) : Prop := ∀ F, file = some F → ∀ b ∈ F.data, b < 256

/-- Every byte of the stream behind a handle is even. -/
def stream_even (file : Option FILE) : Prop := ∀ F, file = some F → ∀ b ∈ F.data, b % 2 = 0

/-! ## Lemmas on bytes and machine integers -/

theorem le_encode_length (k n : Nat) : (le_encode k n).length = k := by
  induction k generalizing n with
  | zero => rfl
  | succ k ih => simp [le_encode, ih]

theorem le_decode_encode (k n : Nat) : le_decode (le_encode k n) = n % 256 ^ k := by
  induction k generalizing n with
  | zero => simp [le_encode, le_decode, Nat.mod_one]
  | succ k ih =>
    simp only [le_encode, le_decode, ih]
    rw [pow_succ, Nat.mul_comm (256 ^ k) 256, Nat.mod_mul]

theorem le_encode_decode (bs : List Nat) (hb : ∀ b ∈ bs, b < 256) :
    le_encode bs.length (le_decode bs) = bs := by
  induction bs with
  | nil => rfl
  | cons b bs ih =>
    have h1 : b < 256 := hb b (List.mem_cons_self _ _)
    have h2 : ∀ c ∈ bs, c < 256 := fun c hc => hb c (List.mem_cons_of_mem _ hc)
    simp only [List.length_cons, le_encode, le_decode]
    have e1 : (b + 256 * le_decode bs) % 256 = b := by omega
    have e2 : (b + 256 * le_decode bs) / 256 = le_decode bs := by omega
    rw [e1, e2, ih h2]

theorem to_int32_of_small (n : Int) (h0 : 0 ≤ n) (h1 : n < 2147483648) : to_int32 n = n := by
  unfold to_int32
  have : n % 4294967296 = n := by omega
  rw [this, if_pos h1]

theorem size_t_of_small (n : Int) (h0 : 0 ≤ n) (h1 : n < 18446744073709551616) :
    size_t n = n.toNat := by
  unfold size_t
  have : n % 18446744073709551616 = n := by omega
  rw [this]

theorem size_t_natCast (n : Nat) (h1 : n < 18446744073709551616) : size_t (n : Int) = n := by
  rw [size_t_of_small _ (by omega) (by omega)]
  simp

theorem poke_length (dst : List Nat) (off : Nat) (src : List Nat) :
    (poke dst off src).length = dst.length := by
  unfold poke
  simp only [List.length_take, List.length_append, List.length_drop]
  omega

theorem poke_zero_exact (dst src : List Nat) (h : src.length = dst.length) :
    poke dst 0 src = src := by
  unfold poke
  simp [h]

theorem takeWhile_ne_zero_append (s rest : List Nat) (hs : ∀ b ∈ s, b ≠ 0) :
    (s ++ 0 :: rest).takeWhile (fun b => b ≠ 0) = s := by
  induction s with
  | nil => simp
  | cons a s ih =>
    have h1 : a ≠ 0 := hs a (List.mem_cons_self _ _)
    have h2 : ∀ c ∈ s, c ≠ 0 := fun c hc => hs c (List.mem_cons_of_mem _ hc)
    have h3 : decide (a ≠ 0) = true := decide_eq_true h1
    rw [List.cons_append, List.takeWhile_cons, h3]
    simp only [if_true]
    rw [ih h2]

theorem qstrlen_append (s rest : List Nat) (hs : ∀ b ∈ s, b ≠ 0) :
    qstrlen (s ++ 0 :: rest) = s.length := by
  unfold qstrlen
  rw [takeWhile_ne_zero_append s rest hs]

theorem read_cstr_append (s rest : List Nat) (hs : ∀ b ∈ s, b ≠ 0) :
    read_cstr (s ++ 0 :: rest) = some s := by
  unfold read_cstr
  rw [takeWhile_ne_zero_append s rest hs]
  simp

theorem qstrcmp_append (a b ra rb : List Nat) (ha : ∀ x ∈ a, x ≠ 0) (hb : ∀ x ∈ b, x ≠ 0) :
    (qstrcmp (a ++ 0 :: ra) (b ++ 0 :: rb)).map (fun c => decide (c = 0))
      = some (decide (a = b)) := by
  induction a generalizing b with
  | nil =>
    cases b with
    | nil => simp [qstrcmp]
    | cons y b =>
      have hy : y ≠ 0 := hb y (List.mem_cons_self _ _)
      have hy2 : ¬ (0 = y) := fun e => hy e.symm
      simp [qstrcmp, hy2]
      split <;> simp
  | cons x a ih =>
    have hx : x ≠ 0 := ha x (List.mem_cons_self _ _)
    have ha2 : ∀ c ∈ a, c ≠ 0 := fun c hc => ha c (List.mem_cons_of_mem _ hc)
    cases b with
    | nil =>
      simp [qstrcmp, hx]
    | cons y b =>
      have hb2 : ∀ c ∈ b, c ≠ 0 := fun c hc => hb c (List.mem_cons_of_mem _ hc)
      by_cases hxy : x = y
      · subst hxy
        simpa [qstrcmp, hx] using ih b ha2 hb2
      · simp [qstrcmp, hxy]
        split <;> simp

/-! ## Lemmas on the tag bit -/

theorem lor_mask (e : Nat) (he : e < 2 ^ 63) : e ||| 2 ^ 63 = 2 ^ 63 + e := by
  have h := Nat.mul_add_lt_is_or he 1
  rw [Nat.mul_one] at h
  rw [Nat.lor_comm, h]

theorem land_mask_of_lt (e : Nat) (he : e < 2 ^ 63) : e &&& 2 ^ 63 = 0 := by
  apply Nat.eq_of_testBit_eq
  intro i
  rw [Nat.testBit_and, Nat.testBit_two_pow, Nat.zero_testBit]
  by_cases hi : 63 = i
  · subst hi
    rw [Nat.testBit_lt_two_pow he]
    rfl
  · simp [hi]

theorem land_mask_of_tagged (e : Nat) (he : e < 2 ^ 63) : (2 ^ 63 + e) &&& 2 ^ 63 ≠ 0 := by
  intro h
  have h1 : ((2 ^ 63 + e) &&& 2 ^ 63).testBit 63 = true := by
    rw [Nat.testBit_and, Nat.testBit_two_pow_add_eq, Nat.testBit_lt_two_pow he,
      Nat.testBit_two_pow_self]
    rfl
  rw [h, Nat.zero_testBit] at h1
  exact Bool.noConfusion h1

theorem land_low_of_tagged (e : Nat) (he : e < 2 ^ 63) : (2 ^ 63 + e) &&& (2 ^ 63 - 1) = e := by
  rw [Nat.and_pow_two_sub_one_eq_mod]
  omega

namespace ida_string_base

theorem mark_as_allocated_end (p e : Nat) (he : e < 2 ^ 63) :
    mark_as_allocated { buffer_start := p, buffer_end := e }
      = { buffer_start := p, buffer_end := 2 ^ 63 + e } := by
  unfold mark_as_allocated use_allocated_buffer_mask
  have h := lor_mask e he
  norm_num at h ⊢
  exact h

theorem is_inline_string_of_lt (p e : Nat) (he : e < 2 ^ 63) :
    is_inline_string { buffer_start := p, buffer_end := e } = true := by
  unfold is_inline_string use_allocated_buffer_mask
  have h := land_mask_of_lt e he
  norm_num at h ⊢
  exact h

theorem is_inline_string_of_tagged (p e : Nat) (he : e < 2 ^ 63) :
    is_inline_string { buffer_start := p, buffer_end := 2 ^ 63 + e } = false := by
  unfold is_inline_string use_allocated_buffer_mask
  have h := land_mask_of_tagged e he
  norm_num at h ⊢
  exact h

theorem get_buffer_end_of_tagged (p e : Nat) (he : e < 2 ^ 63) :
    get_buffer_end { buffer_start := p, buffer_end := 2 ^ 63 + e } = e := by
  unfold get_buffer_end use_allocated_buffer_mask
  have h := land_low_of_tagged e he
  norm_num at h ⊢
  exact h

/-- The length computed for a tagged object whose end is not below its start. -/
theorem length_of_tagged (p e : Nat) (h1 : p ≤ e) (h2 : e ≤ p + 2147483648) (he : e < 2 ^ 63) :
    length { buffer_start := p, buffer_end := 2 ^ 63 + e } = 0 := by
  unfold length length_bytes
  rw [is_inline_string_of_tagged p e he, get_buffer_end_of_tagged p e he]
  simp only [get_buffer_start, Bool.false_eq_true, if_false]
  have hle : to_int32 (size_t ((p : Int) - (e : Int))) ≤ 0 := by
    unfold to_int32 size_t
    split <;> omega
  rw [if_pos hle]

end ida_string_base

/-! ## Lemmas on the object bytes -/

theorem le_decode_append (a b : List Nat) :
    le_decode (a ++ b) = le_decode a + 256 ^ a.length * le_decode b := by
  induction a with
  | nil => simp [le_decode]
  | cons x a ih =>
    rw [List.cons_append]
    simp only [le_decode, List.length_cons, pow_succ]
    rw [ih]
    ring

theorem le_decode_lt (bs : List Nat) (hb : ∀ b ∈ bs, b < 256) :
    le_decode bs < 256 ^ bs.length := by
  induction bs with
  | nil => simp [le_decode]
  | cons b bs ih =>
    have h1 : b < 256 := hb b (List.mem_cons_self _ _)
    have h2 := ih (fun c hc => hb c (List.mem_cons_of_mem _ hc))
    simp only [le_decode, List.length_cons, pow_succ]
    omega

namespace ida_string_base

theorem raw_of_raw (bs : List Nat) (hl : bs.length = 16) (hb : ∀ b ∈ bs, b < 256) :
    raw (of_raw bs) = bs := by
  unfold raw of_raw
  have h1 := le_encode_decode (bs.take 8) (fun b m => hb b (List.mem_of_mem_take m))
  have h2 := le_encode_decode ((bs.drop 8).take 8)
    (fun b m => hb b (List.mem_of_mem_drop (List.mem_of_mem_take m)))
  have e1 : (bs.take 8).length = 8 := by simp [hl]
  have e2 : ((bs.drop 8).take 8).length = 8 := by simp [hl]
  rw [e1] at h1
  rw [e2] at h2
  simp only [h1, h2]
  have e3 : (bs.drop 8).take 8 = bs.drop 8 := List.take_of_length_le (by simp [hl])
  rw [e3, List.take_append_drop]

theorem inline_bytes_length (s : List Nat) (hL : s.length < 16) :
    (inline_bytes s).length = 16 := by
  unfold inline_bytes
  simp only [List.length_append, List.length_replicate]
  omega

theorem inline_bytes_lt (s : List Nat) (hb : ∀ b ∈ s, b < 256) :
    ∀ b ∈ inline_bytes s, b < 256 := by
  intro b m
  unfold inline_bytes at m
  rcases List.mem_append.1 m with m | m
  · exact hb b m
  · rw [List.eq_of_mem_replicate m]
    decide

theorem inline_bytes_split (s : List Nat) (hL : s.length < 16) :
    inline_bytes s = s ++ 0 :: List.replicate (15 - s.length) 0 := by
  unfold inline_bytes
  have : 16 - s.length = (15 - s.length) + 1 := by omega
  rw [this, List.replicate_succ]

theorem poke_head_zeros (w : Nat) (s : List Nat) (h1 : 1 ≤ s.length) (h2 : s.length < 16) :
    poke (w :: List.replicate 15 0) 0 s = inline_bytes s := by
  unfold poke inline_bytes
  cases s with
  | nil => simp at h1
  | cons a t =>
    simp only [List.length_cons] at h2
    have e : 16 - (t.length + 1) = 15 - t.length := by omega
    simp only [List.take_zero, List.nil_append, List.length_cons, Nat.zero_add,
      List.drop_succ_cons, List.drop_replicate, List.length_replicate, e]
    apply List.take_of_length_le
    simp only [List.length_append, List.length_cons, List.length_replicate]
    omega

theorem raw_zero : raw { buffer_start := 0, buffer_end := 0 } = 0 :: List.replicate 15 0 := by
  decide

theorem place_string_inline_eq (x : ida_string_base) (s rest : List Nat)
    (hL : s.length < 16) :
    place_string_inline x (s ++ rest) (s.length : Int) = of_raw (inline_bytes s) := by
  unfold place_string_inline set_use_allocated_buffer set_inline_length_inverse
  simp only [raw_zero, List.headD_cons]
  have e0 : ∀ v : Nat, poke (0 :: List.replicate 15 0) 0 [v] = v :: List.replicate 15 0 := by
    intro v
    simp [poke]
  have e1 : ∀ v : Nat, v < 256 → raw (of_raw (v :: List.replicate 15 0))
      = v :: List.replicate 15 0 := by
    intro v hv
    apply raw_of_raw
    · simp
    · intro b m
      rcases List.mem_cons.1 m with m | m
      · omega
      · rw [List.eq_of_mem_replicate m]
        decide
  have hv : (0 / 16 * 16 + ((16 - (s.length : Int)) % 16).toNat) < 16 := by omega
  rw [e0, e1 _ (by omega)]
  simp only [List.headD_cons]
  have e2 : ∀ v w : Nat, poke (v :: List.replicate 15 0) 0 [w] = w :: List.replicate 15 0 := by
    intro v w
    simp [poke]
  simp only [Bool.false_eq_true, if_false]
  rw [e2, e1 _ (by omega)]
  have e3 : size_t ((s.length : Int) * char_size) = s.length := by
    unfold char_size
    rw [Int.mul_one, size_t_natCast _ (by omega)]
  rw [e3, List.take_left]
  by_cases h0 : s.length = 0
  · have hs : s = [] := List.length_eq_zero.1 h0
    subst hs
    simp [poke, inline_bytes]
  · rw [poke_head_zeros _ s (by omega) hL]

theorem raw_inline (s : List Nat) (hL : s.length < 16) (hb : ∀ b ∈ s, b < 256) :
    raw (of_raw (inline_bytes s)) = inline_bytes s :=
  raw_of_raw _ (inline_bytes_length s hL) (inline_bytes_lt s hb)

theorem buffer_end_inline (s : List Nat) (hL : s.length < 16) (hb : ∀ b ∈ s, b < 256) :
    (of_raw (inline_bytes s)).buffer_end < 2 ^ 63 := by
  have hsplit : inline_bytes s = (s ++ List.replicate (15 - s.length) 0) ++ [0] := by
    unfold inline_bytes
    have : 16 - s.length = (15 - s.length) + 1 := by omega
    rw [this, List.replicate_succ', List.append_assoc]
  have hlen : (s ++ List.replicate (15 - s.length) 0).length = 15 := by
    simp only [List.length_append, List.length_replicate]
    omega
  have hd : (inline_bytes s).drop 8 = (s ++ List.replicate (15 - s.length) 0).drop 8 ++ [0] := by
    rw [hsplit, List.drop_append_of_le_length (by omega)]
  have ht : ((inline_bytes s).drop 8).take 8
      = (s ++ List.replicate (15 - s.length) 0).drop 8 ++ [0] := by
    rw [hd]
    apply List.take_of_length_le
    simp only [List.length_append, List.length_drop, hlen, List.length_cons, List.length_nil]
    omega
  show le_decode (((inline_bytes s).drop 8).take 8) < 2 ^ 63
  rw [ht, le_decode_append]
  have hlt := le_decode_lt ((s ++ List.replicate (15 - s.length) 0).drop 8) (by
    intro b m
    have m2 := List.mem_of_mem_drop m
    rcases List.mem_append.1 m2 with m3 | m3
    · exact hb b m3
    · rw [List.eq_of_mem_replicate m3]
      decide)
  have hl7 : ((s ++ List.replicate (15 - s.length) 0).drop 8).length = 7 := by
    rw [List.length_drop, hlen]
  rw [hl7] at hlt
  simp only [le_decode, Nat.mul_zero, Nat.add_zero]
  omega

theorem is_inline_string_inline (s : List Nat) (hL : s.length < 16) (hb : ∀ b ∈ s, b < 256) :
    is_inline_string (of_raw (inline_bytes s)) = true :=
  is_inline_string_of_lt _ _ (buffer_end_inline s hL hb)

end ida_string_base

/-! ## Lemmas on the heap and on construction -/

theorem map_store_fresh (blocks : List (Nat × List Nat)) (p : Nat)
    (g : Nat × List Nat → Nat × List Nat) (hb : ∀ b ∈ blocks, b.1 < p) :
    blocks.map (fun b => if b.1 = p then g b else b) = blocks := by
  induction blocks with
  | nil => rfl
  | cons b bs ih =>
    have h1 : b.1 ≠ p := Nat.ne_of_lt (hb b (List.mem_cons_self _ _))
    rw [List.map_cons, if_neg h1, ih (fun c hc => hb c (List.mem_cons_of_mem _ hc))]

theorem filter_free_fresh (blocks : List (Nat × List Nat)) (p : Nat)
    (hb : ∀ b ∈ blocks, b.1 < p) :
    blocks.filter (fun b => decide (b.1 ≠ p)) = blocks := by
  apply List.filter_eq_self.2
  intro b m
  exact decide_eq_true (Nat.ne_of_lt (hb b m))

theorem poke_terminator (n j : Nat) :
    poke (List.replicate (n + 1) j) n [0] = List.replicate n j ++ [0] := by
  unfold poke
  simp only [List.take_replicate, List.length_replicate, List.length_cons, List.length_nil,
    List.drop_replicate]
  have e1 : min n (n + 1) = n := by omega
  have e2 : n + 1 - (n + (0 + 1)) = 0 := by omega
  rw [e1, e2]
  simp

theorem poke_payload (s t : List Nat) (h : s.length = t.length) :
    poke (t ++ [0]) 0 s = s ++ [0] := by
  unfold poke
  simp only [List.take_zero, List.nil_append, Nat.zero_add, h, List.drop_left,
    List.length_append, List.length_cons, List.length_nil]
  apply List.take_of_length_le
  simp [h]

theorem ite_some_decide (c : Prop) [Decidable c] (p : Prop) [Decidable p] (hp : p → c) :
    (if c then some (decide p) else some false) = some (decide p) := by
  by_cases hc : c
  · rw [if_pos hc]
  · rw [if_neg hc]
    have : ¬ p := fun x => hc (hp x)
    rw [decide_eq_false this]

theorem heap_wf_alloc (h : Heap) (p : Nat) (v : List Nat) (n : Nat) (l : List heap_event)
    (hwf : h.wf) (hp : p < n) (hn : h.next ≤ n) :
    Heap.wf { blocks := (p, v) :: h.blocks, next := n, junk := h.junk, log := l } := by
  refine ⟨?_, ?_⟩
  · show 0 < n
    omega
  intro b m
  rcases List.mem_cons.1 m with m | m
  · rw [m]
    exact hp
  · exact Nat.lt_of_lt_of_le (hwf.2 b m) hn

namespace ida_string_base

theorem fit_outline_buffer_fresh (x : ida_string_base) (h : Heap) (n : Nat)
    (hx : (is_empty x || is_inline_string x) = true) (hn : n + 1 < 2147483648)
    (hwf : h.wf) (hroom : h.next + n + 1 < 2 ^ 63) :
    fit_outline_buffer x h n
      = ({ buffer_start := h.next, buffer_end := 2 ^ 63 + (h.next + n + 1) },
         { blocks := (h.next, List.replicate n h.junk ++ [0]) :: h.blocks,
           next := h.next + (n + 1) + 1,
           junk := h.junk,
           log := h.log ++ [heap_event.alloc h.next (n + 1)] }) := by
  unfold fit_outline_buffer
  have e1 : to_int32 ((n : Int) + 1) = ((n + 1 : Nat) : Int) := by
    rw [to_int32_of_small _ (by omega) (by omega)]
    push_cast
    rfl
  have e2 : size_t ((n + 1 : Nat) : Int) = n + 1 := size_t_natCast _ (by omega)
  have e3 : size_t ((h.next : Int) + ((n + 1 : Nat) : Int)) = h.next + n + 1 := by
    have := size_t_natCast (h.next + n + 1) (by omega)
    rw [← this]
    push_cast
    ring_nf
  simp only [hx, if_true, e1, e2, qalloc, e3]
  rw [mark_as_allocated_end _ _ hroom]
  have e4 : ¬ ((n : Int) < 0) := by omega
  simp only [Heap.store, e4, if_false, List.map_cons, if_true, Int.toNat_ofNat, poke_terminator,
    map_store_fresh h.blocks h.next _ hwf.2]

theorem allocate_outline_string_fresh (x : ida_string_base) (h : Heap) (s rest : List Nat)
    (hx : (is_empty x || is_inline_string x) = true) (hn : s.length + 1 < 2147483648)
    (hwf : h.wf) (hroom : h.next + s.length + 1 < 2 ^ 63) :
    allocate_outline_string x h (s ++ rest) s.length
      = ({ buffer_start := h.next, buffer_end := 2 ^ 63 + (h.next + s.length + 1) },
         { blocks := (h.next, s ++ [0]) :: h.blocks,
           next := h.next + (s.length + 1) + 1,
           junk := h.junk,
           log := h.log ++ [heap_event.alloc h.next (s.length + 1)] }) := by
  unfold allocate_outline_string
  rw [fit_outline_buffer_fresh x h s.length hx hn hwf hroom]
  have e3 : size_t ((s.length : Int) * char_size) = s.length := by
    unfold char_size
    rw [Int.mul_one, size_t_natCast _ (by omega)]
  simp only [Heap.store, e3, List.take_left, Int.toNat_zero, List.map_cons, if_true,
    map_store_fresh h.blocks h.next _ hwf.2]
  rw [poke_payload s _ (by simp)]
  simp

theorem zero_fresh :
    (is_empty { buffer_start := 0, buffer_end := 0 }
      || is_inline_string { buffer_start := 0, buffer_end := 0 }) = true := by
  decide

theorem construct_length (s rest : List Nat) (hs : is_payload s) (hn : s.length < 2147483648) :
    to_int32 (qstrlen (s ++ 0 :: rest)) = (s.length : Int) := by
  rw [qstrlen_append s rest (fun b m => (hs b m).1), to_int32_of_small _ (by omega) (by omega)]

theorem is_length_suitable_for_inline_iff (n : Nat) (hn : n < 2147483648) :
    is_length_suitable_for_inline n = decide (n < 16) := by
  unfold is_length_suitable_for_inline char_size
  rw [Int.mul_one, to_int32_of_small _ (by omega) (by omega)]
  by_cases h : n < 16
  · rw [decide_eq_true h]
    apply decide_eq_true
    omega
  · rw [decide_eq_false h]
    apply decide_eq_false
    omega

theorem construct_from_inline (h : Heap) (addr : Nat) (s rest : List Nat) (hs : is_payload s)
    (hL : s.length < 16) :
    construct_from h (some { addr := addr, bytes := s ++ 0 :: rest }) false
      = (of_raw (inline_bytes s), h) := by
  unfold construct_from
  simp only [construct_length s rest hs (by omega),
    is_length_suitable_for_inline_iff s.length (by omega), decide_eq_true hL, if_true,
    Bool.false_eq_true, if_false]
  rw [place_string_inline_eq _ s (0 :: rest) hL]

theorem construct_from_outline (h : Heap) (addr : Nat) (s rest : List Nat) (hs : is_payload s)
    (hL : 16 ≤ s.length) (hn : s.length + 1 < 2147483648) (hwf : h.wf)
    (hroom : h.next + s.length + 1 < 2 ^ 63) :
    construct_from h (some { addr := addr, bytes := s ++ 0 :: rest }) false
      = ({ buffer_start := h.next, buffer_end := 2 ^ 63 + (h.next + s.length + 1) },
         { blocks := (h.next, s ++ [0]) :: h.blocks,
           next := h.next + (s.length + 1) + 1,
           junk := h.junk,
           log := h.log ++ [heap_event.alloc h.next (s.length + 1)] }) := by
  unfold construct_from
  have hL2 : ¬ s.length < 16 := by omega
  simp only [construct_length s rest hs (by omega),
    is_length_suitable_for_inline_iff s.length (by omega), decide_eq_false hL2,
    Bool.false_eq_true, if_false]
  exact allocate_outline_string_fresh _ h s (0 :: rest) zero_fresh hn hwf hroom

end ida_string_base

/-! ## Lemmas on `c_str` -/

namespace ida_string_base

theorem deref_inline (s : List Nat) (hL : s.length < 16) (hb : ∀ b ∈ s, b < 256) (h : Heap) :
    (c_str (of_raw (inline_bytes s))).deref h
      = some (s ++ 0 :: List.replicate (15 - s.length) 0) := by
  unfold c_str
  rw [is_inline_string_inline s hL hb, if_pos rfl, raw_inline s hL hb, inline_bytes_split s hL]
  rfl

theorem deref_tagged (p e : Nat) (he : e < 2 ^ 63) (hp : 0 < p) (h : Heap) :
    (c_str { buffer_start := p, buffer_end := 2 ^ 63 + e }).deref h = h.load p := by
  unfold c_str
  rw [is_inline_string_of_tagged p e he]
  simp only [Bool.false_eq_true, if_false, char_ptr.deref]
  rw [if_neg (by omega)]

theorem load_head (p : Nat) (v : List Nat) (bs : List (Nat × List Nat)) (n j : Nat)
    (l : List heap_event) :
    Heap.load { blocks := (p, v) :: bs, next := n, junk := j, log := l } p = some v := by
  simp [Heap.load, List.lookup]

end ida_string_base

/-! ## Lemmas on the reading loop -/

namespace ida_file

theorem read_at (data : List Nat) (k w v : Nat) (rest junk : List Nat) (m : open_mode)
    (size : Int) (hd : data.drop k = le_encode w v ++ rest) (hv : v < 256 ^ w)
    (hj : junk.length = w) (hk : k + w < 2147483648) :
    read { file := some { data := data, cursor := k }, mode := m, pos := k, size := size } w junk
      = (v, { file := some { data := data, cursor := k + w }, mode := m,
              pos := ((k + w : Nat) : Int), size := size }) := by
  unfold read qfread
  have e1 : (data.drop k).take w = le_encode w v := by
    rw [hd]
    exact List.take_left' (le_encode_length w v)
  have e2 : to_int32 ((k : Int) + (w : Int)) = ((k + w : Nat) : Int) := by
    rw [to_int32_of_small _ (by omega) (by omega)]
    push_cast
    rfl
  simp only [e1, e2, le_encode_length]
  rw [poke_zero_exact _ _ (by rw [le_encode_length, hj]), le_decode_encode, Nat.mod_eq_of_lt hv]

theorem read_string_at (data : List Nat) (k : Nat) (name rest : List Nat) (m : open_mode)
    (size : Int) (h : Heap) (hd : data.drop k = name ++ rest) (h1 : 1 ≤ name.length)
    (hk : k + name.length < 2147483648) (hn : name.length + 1 < 2147483648) (hwf : h.wf)
    (hroom : h.next + name.length + 1 < 2 ^ 63) :
    read_string { file := some { data := data, cursor := k }, mode := m, pos := k, size := size }
        h name.length
      = ({ buffer_start := h.next, buffer_end := 2 ^ 63 + (h.next + name.length + 1) },
         { file := some { data := data, cursor := k + name.length }, mode := m,
           pos := ((k + name.length : Nat) : Int), size := size },
         { blocks := (h.next, name ++ [0]) :: h.blocks,
           next := h.next + (name.length + 1) + 1,
           junk := h.junk,
           log := h.log ++ [heap_event.alloc h.next (name.length + 1)] }) := by
  unfold read_string ida_string_base.buffer qfread
  have e0 : ida_string_base.length ida_string_base.construct < (name.length : Int) := by
    have : ida_string_base.length ida_string_base.construct = 0 := by decide
    rw [this]
    omega
  have ec : (ida_string_base.is_empty ida_string_base.construct
      || ida_string_base.is_inline_string ida_string_base.construct) = true := by decide
  have e1 : (data.drop k).take (size_t (name.length : Int)) = name := by
    rw [size_t_natCast _ (by omega), hd]
    exact List.take_left' rfl
  have e2 : to_int32 ((k : Int) + (name.length : Int)) = ((k + name.length : Nat) : Int) := by
    rw [to_int32_of_small _ (by omega) (by omega)]
    push_cast
    rfl
  have e3 : (ida_string_base.c_str
      { buffer_start := h.next, buffer_end := 2 ^ 63 + (h.next + name.length + 1) })
      = char_ptr.heap h.next := by
    unfold ida_string_base.c_str
    rw [ida_string_base.is_inline_string_of_tagged _ _ hroom]
    simp
  simp only [if_pos e0, ida_string_base.fit_outline_buffer_fresh _ h name.length ec hn hwf hroom,
    e1, e2, e3]
  simp only [Heap.store, Int.toNat_zero, List.map_cons, if_true,
    map_store_fresh h.blocks h.next _ hwf.2]
  rw [poke_payload name _ (by simp)]
  simp

end ida_file

theorem encode_record_length (r : record) :
    (encode_record r).length = 6 + r.name.length := by
  unfold encode_record
  simp only [List.length_append, le_encode_length]

theorem run_loop_records (base uninit : Nat) (rs : List record) :
    ∀ (pre : List Nat) (h : Heap) (calls : List name_call) (fuel : Nat),
      (∀ r ∈ rs, named_record r) →
      (pre ++ encode_records rs).length < 2147483648 →
      h.wf →
      h.next + (encode_records rs).length < 2 ^ 63 →
      rs.length ≤ fuel →
      ∃ f g, run_loop base uninit fuel (stream_at (pre ++ encode_records rs) pre.length) h calls
        = some (calls ++ rs.map (expected_call base), f, g) := by
  induction rs with
  | nil =>
    intro pre h calls fuel _ _ _ _ _
    have hc : (stream_at (pre ++ encode_records []) pre.length).can_read_more = false := by
      unfold ida_file.can_read_more stream_at encode_records
      simp
    refine ⟨stream_at (pre ++ encode_records []) pre.length, h, ?_⟩
    cases fuel with
    | zero =>
      unfold run_loop
      rw [hc]
      simp
    | succ fuel =>
      unfold run_loop
      rw [hc]
      simp
  | cons r rs ih =>
    intro pre h calls fuel hrs hsize hwf hroom hfuel
    obtain ⟨ho, hn1, hn2, hp⟩ := hrs r (List.mem_cons_self _ _)
    have hrs2 : ∀ q ∈ rs, named_record q := fun q m => hrs q (List.mem_cons_of_mem _ m)
    cases fuel with
    | zero => simp at hfuel
    | succ fuel =>
      have hlen : (encode_records (r :: rs)).length
          = 6 + r.name.length + (encode_records rs).length := by
        simp only [encode_records, List.length_append, encode_record_length]
      have hsz : pre.length + (6 + r.name.length + (encode_records rs).length) < 2147483648 := by
        rw [List.length_append, hlen] at hsize
        exact hsize
      have hc : (stream_at (pre ++ encode_records (r :: rs)) pre.length).can_read_more = true := by
        unfold ida_file.can_read_more stream_at
        apply decide_eq_true
        show (pre.length : Int) < ((pre ++ encode_records (r :: rs)).length : Int)
        rw [List.length_append, hlen]
        omega
      have hd1 : (pre ++ encode_records (r :: rs)).drop pre.length
          = le_encode 4 r.offset
            ++ (le_encode 2 r.name.length ++ r.name ++ encode_records rs) := by
        rw [List.drop_left]
        simp only [encode_records, encode_record, List.append_assoc]
      have hd2 : (pre ++ encode_records (r :: rs)).drop (pre.length + 4)
          = le_encode 2 r.name.length ++ (r.name ++ encode_records rs) := by
        rw [← List.drop_drop, hd1, List.drop_left' (le_encode_length 4 r.offset)]
        simp only [List.append_assoc]
      have hd3 : (pre ++ encode_records (r :: rs)).drop (pre.length + 4 + 2)
          = r.name ++ encode_records rs := by
        rw [← List.drop_drop, hd2, List.drop_left' (le_encode_length 2 r.name.length)]
      have hroom1 : h.next + r.name.length + 1 < 2 ^ 63 := by
        rw [hlen] at hroom
        omega
      unfold run_loop
      rw [hc, if_pos rfl]
      simp only
      unfold stream_at
      rw [ida_file.read_at _ pre.length 4 r.offset _ _ _ _ hd1 (by norm_num; omega) (by simp)
        (by omega)]
      simp only
      rw [ida_file.read_at _ (pre.length + 4) 2 r.name.length _ _ _ _ hd2 (by norm_num; omega)
        (by simp) (by omega)]
      simp only
      rw [ida_file.read_string_at _ (pre.length + 4 + 2) r.name _ _ _ h hd3 hn1 (by omega)
        (by omega) hwf hroom1]
      simp only
      rw [ida_string_base.deref_tagged _ _ hroom1 hwf.1, ida_string_base.load_head]
      have hcs : read_cstr (r.name ++ [0]) = some r.name :=
        read_cstr_append r.name [] (fun b m => (hp b m).1)
      have hcl : (ida_string_base.cleanup_self
          { buffer_start := h.next, buffer_end := 2 ^ 63 + (h.next + r.name.length + 1) }
          { blocks := (h.next, r.name ++ [0]) :: h.blocks,
            next := h.next + (r.name.length + 1) + 1,
            junk := h.junk,
            log := h.log ++ [heap_event.alloc h.next (r.name.length + 1)] }).2
          = { blocks := h.blocks,
              next := h.next + (r.name.length + 1) + 1,
              junk := h.junk,
              log := h.log ++ [heap_event.alloc h.next (r.name.length + 1)]
                ++ [heap_event.free h.next] } := by
        unfold ida_string_base.cleanup_self qfree
        rw [ida_string_base.is_inline_string_of_tagged _ _ hroom1]
        have hne : h.next ≠ 0 := Nat.pos_iff_ne_zero.1 hwf.1
        simp only [Bool.false_eq_true, if_false, if_neg hne]
        have hf : List.filter (fun b => decide (b.1 ≠ h.next))
            ((h.next, r.name ++ [0]) :: h.blocks) = h.blocks := by
          rw [List.filter_cons_of_neg (by simp)]
          exact filter_free_fresh h.blocks h.next hwf.2
        rw [hf]
      rw [hcl]
      simp only [Option.some_bind, hcs]
      have hwf2 : Heap.wf
          { blocks := h.blocks,
            next := h.next + (r.name.length + 1) + 1,
            junk := h.junk,
            log := h.log ++ [heap_event.alloc h.next (r.name.length + 1)]
              ++ [heap_event.free h.next] } := by
        refine ⟨?_, ?_⟩
        · show 0 < h.next + (r.name.length + 1) + 1
          omega
        · intro b m
          have := hwf.2 b m
          show b.1 < h.next + (r.name.length + 1) + 1
          omega
      have hpre : (pre ++ encode_record r).length = pre.length + 4 + 2 + r.name.length := by
        rw [List.length_append, encode_record_length]
        omega
      have hdata : pre ++ encode_records (r :: rs) = (pre ++ encode_record r) ++ encode_records rs := by
        simp only [encode_records, List.append_assoc]
      have hih := ih (pre ++ encode_record r) _
        (calls ++ [((base + r.offset) % 18446744073709551616, some r.name)]) fuel hrs2
        (by rw [← hdata]; exact hsize) hwf2
        (by
          show h.next + (r.name.length + 1) + 1 + (encode_records rs).length < 2 ^ 63
          rw [hlen] at hroom
          omega)
        (by simpa using hfuel)
      obtain ⟨f, g, hfg⟩ := hih
      refine ⟨f, g, ?_⟩
      unfold stream_at at hfg
      rw [hpre, ← hdata] at hfg
      have hsz2 : (((pre ++ encode_record r) ++ encode_records rs).length : Int)
          = ((pre ++ encode_records (r :: rs)).length : Int) := by
        rw [hdata]
      rw [hfg]
      simp [expected_call]

theorem ida_file.construct_from_open (d : disk) (h : Heap) (ptr : char_ptr) (path data : List Nat)
    (hnn : ptr.is_null = false) (hder : (ptr.deref h).bind read_cstr = some path)
    (hf : d.fopenRB path = some data) (hsz : data.length < 2147483648) :
    ida_file.construct_from d h ptr open_mode.binary_read_only = stream_at data 0 := by
  unfold ida_file.construct_from ida_file.open_file
  have e : to_int32 (data.length : Int) = (data.length : Int) :=
    to_int32_of_small _ (by omega) (by omega)
  simp [hnn, hder, hf, ida_file.is_open, stream_at, e]

theorem stream_at_is_open (data : List Nat) (k : Nat) : (stream_at data k).is_open = true := by
  simp [stream_at, ida_file.is_open]

/-! ## Lemmas on zero termination -/

theorem poke_terminator_get (v : List Nat) (n : Nat) (hn : n < v.length) :
    (poke v n [0])[n]? = some 0 := by
  unfold poke
  rw [List.getElem?_take_of_lt hn, List.append_assoc,
    List.getElem?_append_right (by simp [Nat.le_of_lt hn])]
  simp [Nat.le_of_lt hn]

theorem poke_front_get (v src : List Nat) (n : Nat) (hs : src.length ≤ n) (hn : n < v.length) :
    (poke v 0 src)[n]? = v[n]? := by
  unfold poke
  rw [List.getElem?_take_of_lt hn, List.take_zero, List.nil_append,
    List.getElem?_append_right hs, List.getElem?_drop]
  congr 1
  omega

theorem lookup_filter_ne (blocks : List (Nat × List Nat)) (p q : Nat) (hpq : p ≠ q) :
    (blocks.filter (fun b => decide (b.1 ≠ q))).lookup p = blocks.lookup p := by
  induction blocks with
  | nil => rfl
  | cons b bs ih =>
    obtain ⟨a, v⟩ := b
    by_cases ha : a = q
    · subst ha
      rw [List.filter_cons_of_neg (by simp)]
      rw [ih]
      simp [List.lookup, beq_false_of_ne hpq]
    · rw [List.filter_cons_of_pos (by simpa using ha)]
      simp only [List.lookup]
      rw [ih]

namespace ida_string_base

theorem is_inline_string_mark (s : ida_string_base) :
    is_inline_string (mark_as_allocated s) = false := by
  unfold is_inline_string mark_as_allocated use_allocated_buffer_mask
  have h1 : ((s.buffer_end ||| 2 ^ 63) &&& 2 ^ 63).testBit 63 = true := by
    rw [Nat.testBit_and, Nat.testBit_or, Nat.testBit_two_pow_self]
    simp
  have h2 : (s.buffer_end ||| 2 ^ 63) &&& 2 ^ 63 ≠ 0 := by
    intro h
    rw [h, Nat.zero_testBit] at h1
    exact Bool.noConfusion h1
  norm_num at h2 ⊢
  exact h2

theorem length_nonneg (s : ida_string_base) : 0 ≤ length s := by
  unfold length
  split <;> omega

theorem zero_terminated_zero (h : Heap) :
    zero_terminated h { buffer_start := 0, buffer_end := 0 } = true := by
  have hz : is_inline_string { buffer_start := 0, buffer_end := 0 } = true := by decide
  unfold zero_terminated c_str
  rw [hz, if_pos rfl, raw_zero]
  simp [char_ptr.deref]

theorem zero_terminated_inline (h : Heap) (s : List Nat) (hL : s.length < 16)
    (hb : ∀ b ∈ s, b < 256) : zero_terminated h (of_raw (inline_bytes s)) = true := by
  unfold zero_terminated
  rw [deref_inline s hL hb]
  simp

theorem zero_terminated_tagged (h : Heap) (x : ida_string_base) (v : List Nat) (n : Nat)
    (hx : is_inline_string x = false) (hp : x.buffer_start ≠ 0)
    (hl : h.load x.buffer_start = some v) (hv : v[n]? = some 0) :
    zero_terminated h x = true := by
  unfold zero_terminated c_str
  rw [hx]
  simp only [Bool.false_eq_true, if_false, char_ptr.deref, if_neg hp, hl]
  exact decide_eq_true (List.getElem?_mem hv)

/-- What `fit_outline_buffer` leaves, in both of its branches: a tagged object on a
fresh block of `n + 1` bytes whose last byte is zero. -/
theorem fit_outline_buffer_block (x : ida_string_base) (h : Heap) (n : Nat)
    (hn : n + 1 < 2147483648) (hwf : h.wf) (hroom : h.next + n + 1 < 2 ^ 63) :
    ∃ v bs l, fit_outline_buffer x h n
        = ({ buffer_start := h.next, buffer_end := 2 ^ 63 + (h.next + n + 1) },
           { blocks := (h.next, v) :: bs, next := h.next + (n + 1) + 1, junk := h.junk,
             log := l })
      ∧ v.length = n + 1 ∧ v[n]? = some 0 := by
  by_cases hx : (is_empty x || is_inline_string x) = true
  · refine ⟨_, _, _, fit_outline_buffer_fresh x h n hx hn hwf hroom, by simp, ?_⟩
    rw [List.getElem?_append_right (by simp)]
    simp
  · have e1 : to_int32 ((n : Int) + 1) = ((n + 1 : Nat) : Int) := by
      rw [to_int32_of_small _ (by omega) (by omega)]
      push_cast
      rfl
    have e2 : size_t ((n + 1 : Nat) : Int) = n + 1 := size_t_natCast _ (by omega)
    have e3 : size_t ((h.next : Int) + ((n + 1 : Nat) : Int)) = h.next + n + 1 := by
      have := size_t_natCast (h.next + n + 1) (by omega)
      rw [← this]
      push_cast
      ring_nf
    have e4 : ¬ ((n : Int) < 0) := by omega
    by_cases hp : x.buffer_start = 0
    · refine ⟨List.replicate n h.junk ++ [0], h.blocks,
        h.log ++ [heap_event.alloc h.next (n + 1)], ?_, by simp, ?_⟩
      · unfold fit_outline_buffer
        simp only [hx, Bool.false_eq_true, if_false, e1, e2, qrealloc, if_pos hp, qalloc, e3]
        rw [mark_as_allocated_end _ _ hroom]
        simp only [Heap.store, e4, if_false, List.map_cons, if_true, Int.toNat_ofNat,
          poke_terminator, map_store_fresh h.blocks h.next _ hwf.2]
      · rw [List.getElem?_append_right (by simp)]
        simp
    · have hfil : ∀ b ∈ h.blocks.filter (fun b => decide (b.1 ≠ x.buffer_start)), b.1 < h.next :=
        fun b m => hwf.2 b (List.mem_of_mem_filter m)
      refine ⟨poke (((h.load x.buffer_start).getD [] ++ List.replicate (n + 1) h.junk).take
          (n + 1)) n [0],
        h.blocks.filter (fun b => decide (b.1 ≠ x.buffer_start)),
        h.log ++ [heap_event.realloc x.buffer_start h.next (n + 1)], ?_, ?_, ?_⟩
      · unfold fit_outline_buffer
        simp only [hx, Bool.false_eq_true, if_false, e1, e2, qrealloc, if_neg hp, e3]
        rw [mark_as_allocated_end _ _ hroom]
        simp only [Heap.store, e4, if_false, List.map_cons, if_true, Int.toNat_ofNat,
          map_store_fresh _ h.next _ hfil]
      · rw [poke_length]
        simp
      · apply poke_terminator_get
        simp

theorem cleanup_self_inline (d : ida_string_base) (h : Heap) (hwf : h.wf) :
    is_inline_string (cleanup_self d h).1 = true
    ∧ (cleanup_self d h).2.next = h.next
    ∧ (cleanup_self d h).2.wf := by
  unfold cleanup_self
  by_cases hd : is_inline_string d = true
  · rw [if_pos hd]
    exact ⟨hd, rfl, hwf⟩
  · rw [if_neg hd]
    refine ⟨?_, ?_, ?_⟩
    · show is_inline_string { buffer_start := 0, buffer_end := 0 } = true
      decide
    · unfold qfree
      split <;> rfl
    · unfold qfree
      split
      · exact hwf
      · exact ⟨hwf.1, fun b m => hwf.2 b (List.mem_of_mem_filter m)⟩

end ida_string_base

theorem qfread_length (file : Option FILE) (k : Nat) : (qfread file k).1.length ≤ k := by
  unfold qfread
  cases file with
  | none => simp
  | some f =>
    simp only [List.length_take]
    omega

namespace ida_string_base

theorem zero_terminated_cleanup (h : Heap) (x d : ida_string_base)
    (hx : zero_terminated h x = true)
    (hdis : d.is_inline_string = true ∨ x.is_inline_string = true
      ∨ d.buffer_start ≠ x.buffer_start) :
    zero_terminated (cleanup_self d h).2 x = true := by
  unfold cleanup_self
  by_cases hd : is_inline_string d = true
  · rw [if_pos hd]
    exact hx
  · rw [if_neg hd]
    show zero_terminated (qfree h d.buffer_start) x = true
    unfold qfree
    by_cases hp : d.buffer_start = 0
    · rw [if_pos hp]
      exact hx
    · rw [if_neg hp]
      by_cases hxi : is_inline_string x = true
      · unfold zero_terminated c_str at hx ⊢
        rw [hxi, if_pos rfl] at hx ⊢
        exact hx
      · have hne : x.buffer_start ≠ d.buffer_start := by
          rcases hdis with h1 | h1 | h1
          · exact absurd h1 hd
          · exact absurd h1 hxi
          · exact fun e => h1 e.symm
        unfold zero_terminated c_str at hx ⊢
        rw [if_neg hxi] at hx ⊢
        unfold char_ptr.deref Heap.load at hx ⊢
        simp only at hx ⊢
        rw [lookup_filter_ne _ _ _ hne]
        exact hx

theorem zero_terminated_fit (x : ida_string_base) (h : Heap) (n : Nat)
    (hn : n + 1 < 2147483648) (hwf : h.wf) (hroom : h.next + n + 1 < 2 ^ 63) :
    zero_terminated (fit_outline_buffer x h n).2 (fit_outline_buffer x h n).1 = true := by
  obtain ⟨v, bs, l, hfit, _, hv⟩ := fit_outline_buffer_block x h n hn hwf hroom
  rw [hfit]
  exact zero_terminated_tagged _ _ v n (is_inline_string_of_tagged _ _ hroom)
    (Nat.pos_iff_ne_zero.1 hwf.1) (load_head _ _ _ _ _ _) hv

theorem zero_terminated_assign (x : ida_string_base) (g : Heap) (s rest : List Nat)
    (hx : is_inline_string x = true) (hs : is_payload s) (hn : s.length + 1 < 2147483648)
    (hwf : g.wf) (hroom : g.next + s.length + 1 < 2 ^ 63) :
    zero_terminated
      (if is_length_suitable_for_inline (to_int32 (qstrlen (s ++ 0 :: rest))) then
        (place_string_inline x (s ++ 0 :: rest) (to_int32 (qstrlen (s ++ 0 :: rest))), g)
      else allocate_outline_string x g (s ++ 0 :: rest) (to_int32 (qstrlen (s ++ 0 :: rest)))).2
      (if is_length_suitable_for_inline (to_int32 (qstrlen (s ++ 0 :: rest))) then
        (place_string_inline x (s ++ 0 :: rest) (to_int32 (qstrlen (s ++ 0 :: rest))), g)
      else allocate_outline_string x g (s ++ 0 :: rest) (to_int32 (qstrlen (s ++ 0 :: rest)))).1
      = true := by
  simp only [construct_length s rest hs (by omega),
    is_length_suitable_for_inline_iff s.length (by omega)]
  by_cases hL : s.length < 16
  · rw [decide_eq_true hL, if_pos rfl, place_string_inline_eq _ s (0 :: rest) hL]
    exact zero_terminated_inline _ s hL (fun b m => (hs b m).2)
  · rw [decide_eq_false hL]
    simp only [Bool.false_eq_true, if_false]
    rw [allocate_outline_string_fresh _ _ s (0 :: rest) (by rw [hx]; simp) hn hwf hroom]
    refine zero_terminated_tagged _ _ (s ++ [0]) s.length
      (is_inline_string_of_tagged _ _ hroom) (Nat.pos_iff_ne_zero.1 hwf.1)
      (load_head _ _ _ _ _ _) ?_
    rw [List.getElem?_append_right (le_refl _)]
    simp

end ida_string_base

/-! ## The properties of the specification -/

open ida_string_base

/-- C1, as stated, fails for a record with an empty name: for the file of the single
record (offset `0x10`, name of length 0) and image base `0x400000`, `run` calls
`set_name` with a null name pointer, not with the empty string. -/
theorem run_empty_name :
    (run (host_with [97] (encode_records [{ offset := 16, name := [] }]) 4194304) heap0 1).map
        (fun r => r.1)
      = some [(4194320, none)]
    ∧ (run (host_with [97] (encode_records [{ offset := 16, name := [] }]) 4194304) heap0 1).map
        (fun r => r.1)
      ≠ some ([{ offset := 16, name := [] }].map (expected_call 4194304)) := by
  decide

/-- C1, amended: end to end.  When the file picker answers a path that opens on the
concatenated encodings of records whose names have 1 to 65535 bytes, none of them zero,
with less than `2 ^ 31` bytes in all, `run` calls `set_name` exactly once per record, in
stream order, with the address `get_imagebase() + offset` (a 64-bit sum) and the name of
the record. -/
theorem run_submits_records (env : host) (h : Heap) (addr : Nat) (path rest : List Nat)
    (rs : List record) (fuel : Nat)
    (hask : env.ask_file = some { addr := addr, bytes := path ++ 0 :: rest })
    (hpath : is_payload path) (hpl : path.length + 1 < 2147483648)
    (hfile : env.files.fopenRB path = some (encode_records rs))
    (hrs : ∀ r ∈ rs, named_record r)
    (hsize : (encode_records rs).length < 2147483648)
    (hwf : h.wf) (hroom : h.next + path.length + 2 + (encode_records rs).length < 2 ^ 63)
    (hfuel : rs.length ≤ fuel) :
    (run env h fuel).map (fun r => r.1) = some (rs.map (expected_call env.get_imagebase)) := by
  unfold run
  rw [hask]
  by_cases hL : path.length < 16
  · rw [ida_string_base.construct_from_inline h addr path rest hpath hL]
    simp only
    have hnn : (ida_string_base.c_str
        (ida_string_base.of_raw (ida_string_base.inline_bytes path))).is_null = false := by
      unfold ida_string_base.c_str
      rw [ida_string_base.is_inline_string_inline path hL (fun b m => (hpath b m).2), if_pos rfl]
      rfl
    have hder : ((ida_string_base.c_str
        (ida_string_base.of_raw (ida_string_base.inline_bytes path))).deref h).bind read_cstr
        = some path := by
      rw [ida_string_base.deref_inline path hL (fun b m => (hpath b m).2), Option.some_bind,
        read_cstr_append path _ (fun b m => (hpath b m).1)]
    rw [ida_file.construct_from_open _ _ _ path _ hnn hder hfile hsize, stream_at_is_open,
      if_pos rfl]
    obtain ⟨f, g, hfg⟩ := run_loop_records env.get_imagebase env.uninit rs [] h [] fuel hrs
      (by simpa using hsize) hwf (by omega) hfuel
    simp only [List.nil_append, List.length_nil] at hfg
    rw [hfg]
    simp
  · have hroom1 : h.next + path.length + 1 < 2 ^ 63 := by omega
    rw [ida_string_base.construct_from_outline h addr path rest hpath (by omega) hpl hwf hroom1]
    simp only
    have hwf1 := heap_wf_alloc h h.next (path ++ [0]) (h.next + (path.length + 1) + 1)
      (h.log ++ [heap_event.alloc h.next (path.length + 1)]) hwf (by omega) (by omega)
    have hcs : ida_string_base.c_str
        { buffer_start := h.next, buffer_end := 2 ^ 63 + (h.next + path.length + 1) }
        = char_ptr.heap h.next := by
      unfold ida_string_base.c_str
      rw [ida_string_base.is_inline_string_of_tagged _ _ hroom1]
      simp
    have hne : h.next ≠ 0 := Nat.pos_iff_ne_zero.1 hwf.1
    have hnn : (char_ptr.heap h.next).is_null = false := by
      cases hx : h.next with
      | zero => exact absurd hx hne
      | succ n => rfl
    have hder : ((char_ptr.heap h.next).deref
        { blocks := (h.next, path ++ [0]) :: h.blocks,
          next := h.next + (path.length + 1) + 1,
          junk := h.junk,
          log := h.log ++ [heap_event.alloc h.next (path.length + 1)] }).bind read_cstr
        = some path := by
      simp only [char_ptr.deref, if_neg hne]
      rw [ida_string_base.load_head, Option.some_bind,
        read_cstr_append path [] (fun b m => (hpath b m).1)]
    rw [hcs, ida_file.construct_from_open _ _ _ path _ hnn hder hfile hsize, stream_at_is_open,
      if_pos rfl]
    obtain ⟨f, g, hfg⟩ := run_loop_records env.get_imagebase env.uninit rs [] _ [] fuel hrs
      (by simpa using hsize) hwf1
      (by
        show h.next + (path.length + 1) + 1 + (encode_records rs).length < 2 ^ 63
        omega)
      hfuel
    simp only [List.nil_append, List.length_nil] at hfg
    rw [hfg]
    simp

/-- Witness of C1: the records (`0x10`, `Foo`), (`0x20`, `Bar`) at image base `0x400000`
give the calls (`0x400010`, `Foo`) then (`0x400020`, `Bar`). -/
theorem run_submits_records_witness :
    (run (host_with [97] (encode_records
          [{ offset := 16, name := [70, 111, 111] }, { offset := 32, name := [66, 97, 114] }])
          4194304) heap0 2).map (fun r => r.1)
      = some [(4194320, some [70, 111, 111]), (4194336, some [66, 97, 114])] :=
  run_submits_records
    (host_with [97] (encode_records
      [{ offset := 16, name := [70, 111, 111] }, { offset := 32, name := [66, 97, 114] }])
      4194304)
    heap0 256 [97] []
    [{ offset := 16, name := [70, 111, 111] }, { offset := 32, name := [66, 97, 114] }] 2
    rfl (by decide) (by decide) (by decide) (by decide) (by decide) (by decide) (by decide)
    (by decide)

/-- C2: round trip.  For every payload `s` (bytes, none of them zero) of length `L`,
whatever follows its terminator, constructing an `ida_string` from the borrowed
zero-terminated sequence and calling `c_str()` gives a pointer to an area whose first
`L` bytes are `s` and whose byte at index `L` is zero. -/
theorem c_str_round_trip (h : Heap) (addr : Nat) (s rest : List Nat) (hs : is_payload s)
    (hn : s.length + 1 < 2147483648) (hwf : h.wf) (hroom : h.next + s.length + 1 < 2 ^ 63) :
    ∃ v, (construct_from h (some { addr := addr, bytes := s ++ 0 :: rest }) false).1.c_str.deref
          (construct_from h (some { addr := addr, bytes := s ++ 0 :: rest }) false).2 = some v
      ∧ v.take s.length = s ∧ v[s.length]? = some 0 := by
  by_cases hL : s.length < 16
  · rw [construct_from_inline h addr s rest hs hL]
    refine ⟨_, deref_inline s hL (fun b m => (hs b m).2) h, ?_, ?_⟩
    · simp
    · rw [List.getElem?_append_right (le_refl _)]
      simp
  · rw [construct_from_outline h addr s rest hs (by omega) hn hwf hroom]
    refine ⟨s ++ [0], ?_, ?_, ?_⟩
    · rw [deref_tagged _ _ hroom hwf.1]
      exact load_head _ _ _ _ _ _
    · simp
    · simp

/-- Witness of C2 at the 16 bytes `AAAAAAAAAAAAAAAA`, the shortest outline string. -/
theorem c_str_round_trip_witness :
    is_payload (List.replicate 16 65) ∧ heap0.wf ∧
    ∃ v, (ida_string_base.construct_from heap0
            (some { addr := 256, bytes := List.replicate 16 65 ++ 0 :: [7] }) false).1.c_str.deref
          (ida_string_base.construct_from heap0
            (some { addr := 256, bytes := List.replicate 16 65 ++ 0 :: [7] }) false).2 = some v
      ∧ v.take (List.replicate 16 65).length = List.replicate 16 65
      ∧ v[(List.replicate 16 65).length]? = some 0 :=
  ⟨by decide, by decide,
   c_str_round_trip heap0 256 (List.replicate 16 65) [7] (by decide) (by decide) (by decide)
     (by decide)⟩

/-- C3: the length of a constructed string, evaluated.  The inline string `Foo`
(3 bytes) has `length() = 9`, the empty string has `length() = 15`, and the outline
string of 16 bytes `A` has `length() = 0`. -/
theorem length_of_constructed :
    (ida_string_base.construct_from heap0
        (some { addr := 256, bytes := [70, 111, 111, 0] }) false).1.length = 9
    ∧ (ida_string_base.construct_from heap0
        (some { addr := 256, bytes := [0] }) false).1.length = 15
    ∧ (ida_string_base.construct_from heap0
        (some { addr := 256, bytes := List.replicate 16 65 ++ [0] }) false).1.length = 0 := by
  decide

/-- C4: storage selection.  Constructing from a borrowed sequence of `L` payload bytes
leaves the heap and its trace untouched and gives an object with the tag bit clear when
`L < 16`; otherwise the trace grows by exactly one allocation of `L + 1` bytes and the
object has the tag bit set and `buffer_start` at the new live block of `L + 1` bytes. -/
theorem storage_selection (h : Heap) (addr : Nat) (s rest : List Nat) (hs : is_payload s)
    (hn : s.length + 1 < 2147483648) (hwf : h.wf) (hroom : h.next + s.length + 1 < 2 ^ 63) :
    (s.length < 16 →
      (construct_from h (some { addr := addr, bytes := s ++ 0 :: rest }) false).2 = h
      ∧ (construct_from h (some { addr := addr, bytes := s ++ 0 :: rest }) false).1.is_inline_string
          = true)
    ∧ (16 ≤ s.length →
      (construct_from h (some { addr := addr, bytes := s ++ 0 :: rest }) false).2.log
          = h.log ++ [heap_event.alloc h.next (s.length + 1)]
      ∧ (construct_from h (some { addr := addr, bytes := s ++ 0 :: rest }) false).1.is_inline_string
          = false
      ∧ (construct_from h (some { addr := addr, bytes := s ++ 0 :: rest }) false).1.buffer_start
          = h.next
      ∧ ((construct_from h (some { addr := addr, bytes := s ++ 0 :: rest }) false).2.load
          h.next).map List.length = some (s.length + 1)
      ∧ (construct_from h (some { addr := addr, bytes := s ++ 0 :: rest }) false).2.blocks
          = (h.next, s ++ [0]) :: h.blocks) := by
  constructor
  · intro hL
    rw [construct_from_inline h addr s rest hs hL]
    exact ⟨rfl, is_inline_string_inline s hL (fun b m => (hs b m).2)⟩
  · intro hL
    rw [construct_from_outline h addr s rest hs hL hn hwf hroom]
    refine ⟨rfl, is_inline_string_of_tagged _ _ hroom, rfl, ?_, rfl⟩
    rw [load_head]
    simp

/-- Witness of C4 at the 16 bytes `AAAAAAAAAAAAAAAA`. -/
theorem storage_selection_witness :
    is_payload (List.replicate 16 65) ∧ heap0.wf ∧
    (ida_string_base.construct_from heap0
        (some { addr := 256, bytes := List.replicate 16 65 ++ 0 :: [] }) false).2.log
      = heap0.log ++ [heap_event.alloc heap0.next ((List.replicate 16 65).length + 1)] :=
  ⟨by decide, by decide,
   ((storage_selection heap0 256 (List.replicate 16 65) [] (by decide) (by decide) (by decide)
      (by decide)).2 (by decide)).1⟩

/-- C5: equality is content equality.  For payloads `a` and `b`, the strings constructed
from them (one after the other, on the same heap) compare equal with `operator==`
exactly when `a = b`, whichever of the two is inline or outline. -/
theorem eq_iff_same_content (h : Heap) (addr1 addr2 : Nat) (a b ra rb : List Nat)
    (ha : is_payload a) (hb : is_payload b)
    (hna : a.length + 1 < 2147483648) (hnb : b.length + 1 < 2147483648)
    (hwf : h.wf) (hroom : h.next + a.length + b.length + 3 < 2 ^ 63) :
    eq (construct_from h (some { addr := addr1, bytes := a ++ 0 :: ra }) false).1
       (construct_from (construct_from h (some { addr := addr1, bytes := a ++ 0 :: ra }) false).2
          (some { addr := addr2, bytes := b ++ 0 :: rb }) false).1
       (construct_from (construct_from h (some { addr := addr1, bytes := a ++ 0 :: ra }) false).2
          (some { addr := addr2, bytes := b ++ 0 :: rb }) false).2
      = some (decide (a = b)) := by
  have hza : ∀ x ∈ a, x ≠ 0 := fun x m => (ha x m).1
  have hzb : ∀ x ∈ b, x ≠ 0 := fun x m => (hb x m).1
  have hba : ∀ x ∈ a, x < 256 := fun x m => (ha x m).2
  have hbb : ∀ x ∈ b, x < 256 := fun x m => (hb x m).2
  by_cases hLa : a.length < 16
  · rw [construct_from_inline h addr1 a ra ha hLa]
    by_cases hLb : b.length < 16
    · rw [construct_from_inline h addr2 b rb hb hLb]
      unfold eq
      rw [deref_inline a hLa hba, deref_inline b hLb hbb]
      simp only [qstrcmp_append a b _ _ hza hzb]
      apply ite_some_decide
      intro e
      rw [e]
    · rw [construct_from_outline h addr2 b rb hb (by omega) hnb hwf (by omega)]
      unfold eq
      rw [deref_inline a hLa hba, deref_tagged _ _ (by omega) hwf.1, load_head]
      simp only [qstrcmp_append a b _ _ hza hzb]
      apply ite_some_decide
      intro e
      rw [e] at hLa
      omega
  · rw [construct_from_outline h addr1 a ra ha (by omega) hna hwf (by omega)]
    have hwf1 := heap_wf_alloc h h.next (a ++ [0]) (h.next + (a.length + 1) + 1)
      (h.log ++ [heap_event.alloc h.next (a.length + 1)]) hwf (by omega) (by omega)
    by_cases hLb : b.length < 16
    · rw [construct_from_inline _ addr2 b rb hb hLb]
      unfold eq
      rw [deref_inline b hLb hbb, deref_tagged _ _ (by omega) hwf.1, load_head]
      simp only [qstrcmp_append a b _ _ hza hzb]
      apply ite_some_decide
      intro e
      rw [e] at hLa
      omega
    · rw [construct_from_outline _ addr2 b rb hb (by omega) hnb hwf1 (by simp only; omega)]
      unfold eq
      simp only
      rw [deref_tagged _ _ (by omega) hwf.1, deref_tagged _ _ (by omega) (by omega), load_head]
      have hl : Heap.load
          { blocks := (h.next + (a.length + 1) + 1, b ++ [0]) :: (h.next, a ++ [0]) :: h.blocks,
            next := h.next + (a.length + 1) + 1 + (b.length + 1) + 1,
            junk := h.junk,
            log := h.log ++ [heap_event.alloc h.next (a.length + 1)]
              ++ [heap_event.alloc (h.next + (a.length + 1) + 1) (b.length + 1)] } h.next
          = some (a ++ [0]) := by
        have hne : ¬ (h.next = h.next + (a.length + 1) + 1) := by omega
        simp [Heap.load, List.lookup, beq_false_of_ne hne]
      rw [hl]
      simp only [qstrcmp_append a b _ _ hza hzb]
      apply ite_some_decide
      intro _
      rw [length_of_tagged _ _ (by omega) (by omega) (by omega),
        length_of_tagged _ _ (by omega) (by omega) (by omega)]

/-- Witness of C5 at the inline `Foo` against the outline `AAAAAAAAAAAAAAAA`. -/
theorem eq_iff_same_content_witness :
    is_payload [70, 111, 111] ∧ is_payload (List.replicate 16 65) ∧ heap0.wf ∧
    ida_string_base.eq
      (ida_string_base.construct_from heap0
        (some { addr := 256, bytes := [70, 111, 111] ++ 0 :: [] }) false).1
      (ida_string_base.construct_from
        (ida_string_base.construct_from heap0
          (some { addr := 256, bytes := [70, 111, 111] ++ 0 :: [] }) false).2
        (some { addr := 512, bytes := List.replicate 16 65 ++ 0 :: [] }) false).1
      (ida_string_base.construct_from
        (ida_string_base.construct_from heap0
          (some { addr := 256, bytes := [70, 111, 111] ++ 0 :: [] }) false).2
        (some { addr := 512, bytes := List.replicate 16 65 ++ 0 :: [] }) false).2
      = some (decide ([70, 111, 111] = List.replicate 16 65)) :=
  ⟨by decide, by decide, by decide,
   eq_iff_same_content heap0 256 512 [70, 111, 111] (List.replicate 16 65) [] [] (by decide)
     (by decide) (by decide) (by decide) (by decide) (by decide)⟩

/-- C6: the state of the source after a move.  After move construction or move
assignment from `x` the destination is `x` as it was, and the source is the all-zero
object: its tag bit is clear, yet `length()` is 15 and `is_empty()` is false. -/
theorem moved_from_state (x d : ida_string_base) (h : Heap) :
    (move_construct x).1 = x
    ∧ (move_construct x).2.is_inline_string = true
    ∧ (move_construct x).2.length = 15
    ∧ (move_construct x).2.is_empty = false
    ∧ (move_assign d x h).1 = x
    ∧ (move_assign d x h).2.1.is_inline_string = true
    ∧ (move_assign d x h).2.1.length = 15
    ∧ (move_assign d x h).2.1.is_empty = false := by
  have h1 : is_inline_string { buffer_start := 0, buffer_end := 0 } = true := by decide
  have h2 : length { buffer_start := 0, buffer_end := 0 } = 15 := by decide
  have h3 : is_empty { buffer_start := 0, buffer_end := 0 } = false := by decide
  exact ⟨rfl, h1, h2, h3, rfl, h1, h2, h3⟩

/-- C7: no double release after a move.  For an outline `x` with buffer `p`, after move
construction, and after move assignment into any `d`, destroying the moved-from source
leaves every heap as it is, and destroying the destination releases `p`, once, and
nothing else. -/
theorem move_no_double_release (x d : ida_string_base) (h : Heap)
    (hx : x.is_inline_string = false) (hp : x.buffer_start ≠ 0) :
    (∀ g : Heap, cleanup_self (move_construct x).2 g = ((move_construct x).2, g))
    ∧ (∀ g : Heap, (cleanup_self (move_construct x).1 g).2
        = { g with
            blocks := g.blocks.filter (fun b => b.1 ≠ x.buffer_start),
            log := g.log ++ [heap_event.free x.buffer_start] })
    ∧ (∀ g : Heap, cleanup_self (move_assign d x h).2.1 g = ((move_assign d x h).2.1, g))
    ∧ (∀ g : Heap, (cleanup_self (move_assign d x h).1 g).2
        = { g with
            blocks := g.blocks.filter (fun b => b.1 ≠ x.buffer_start),
            log := g.log ++ [heap_event.free x.buffer_start] }) := by
  have hz : is_inline_string { buffer_start := 0, buffer_end := 0 } = true := by decide
  have hd : ∀ g : Heap, (cleanup_self x g).2
      = { g with
          blocks := g.blocks.filter (fun b => b.1 ≠ x.buffer_start),
          log := g.log ++ [heap_event.free x.buffer_start] } := by
    intro g
    unfold cleanup_self qfree
    rw [hx]
    simp only [Bool.false_eq_true, if_false, if_neg hp]
  refine ⟨?_, hd, ?_, hd⟩
  · intro g
    unfold cleanup_self move_construct
    rw [hz, if_pos rfl]
  · intro g
    unfold cleanup_self move_assign
    simp only [hz, if_true]

/-- Witness of C7 at the outline string that owns the block at `0x1000`. -/
theorem move_no_double_release_witness :
    ida_string_base.is_inline_string
        { buffer_start := 4096, buffer_end := 9223372036854775808 + 4113 } = false
    ∧ (∀ g : Heap, ida_string_base.cleanup_self (ida_string_base.move_construct
          { buffer_start := 4096, buffer_end := 9223372036854775808 + 4113 }).2 g
        = ((ida_string_base.move_construct
          { buffer_start := 4096, buffer_end := 9223372036854775808 + 4113 }).2, g)) :=
  ⟨by decide,
   (move_no_double_release { buffer_start := 4096, buffer_end := 9223372036854775808 + 4113 }
      ida_string_base.construct heap0 (by decide) (by decide)).1⟩

/-- C8: the copy of an outline string, evaluated.  Copy-constructing from the string
built from 16 bytes `A` allocates one byte, and `c_str()` of the copy points to the
single byte zero: the payload is not copied. -/
theorem copy_of_outline :
    ((ida_string_base.copy_construct
        (ida_string_base.construct_from heap0
          (some { addr := 256, bytes := List.replicate 16 65 ++ [0] }) false).1
        (ida_string_base.construct_from heap0
          (some { addr := 256, bytes := List.replicate 16 65 ++ [0] }) false).2).1.c_str.deref
      (ida_string_base.copy_construct
        (ida_string_base.construct_from heap0
          (some { addr := 256, bytes := List.replicate 16 65 ++ [0] }) false).1
        (ida_string_base.construct_from heap0
          (some { addr := 256, bytes := List.replicate 16 65 ++ [0] }) false).2).2) = some [0]
    ∧ (ida_string_base.copy_construct
        (ida_string_base.construct_from heap0
          (some { addr := 256, bytes := List.replicate 16 65 ++ [0] }) false).1
        (ida_string_base.construct_from heap0
          (some { addr := 256, bytes := List.replicate 16 65 ++ [0] }) false).2).2.log
      = [heap_event.alloc 4096 17, heap_event.alloc 4114 1] := by
  decide

/-- C9, as stated, fails: the default-constructed string does not have its tag bit
clear. -/
theorem default_not_inline :
    ¬ (ida_string_base.construct.is_inline_string = true
        ∧ ida_string_base.construct.length = 0) := by
  decide

/-- C9, amended: the default-constructed string is in outline mode with a null buffer:
the tag bit is set, `buffer_start` and the untagged `buffer_end` are null, `length()` is
0, `is_empty()` is true, `c_str()` is null, and its destruction releases nothing. -/
theorem default_construct_state :
    construct.is_inline_string = false
    ∧ construct.buffer_start = 0
    ∧ construct.get_buffer_end = 0
    ∧ construct.length = 0
    ∧ construct.is_empty = true
    ∧ construct.c_str = char_ptr.heap 0
    ∧ ∀ g : Heap, cleanup_self construct g = ({ buffer_start := 0, buffer_end := 0 }, g) := by
  refine ⟨by decide, by decide, by decide, by decide, by decide, by decide, ?_⟩
  intro g
  have h1 : construct.is_inline_string = false := by decide
  have h2 : construct.buffer_start = 0 := by decide
  unfold cleanup_self qfree
  rw [h1, h2]
  simp

/-- C10, as stated, fails: `c_str()` of the default-constructed string, and of the
string returned by `read_string(0)`, is the null pointer. -/
theorem default_c_str_null :
    ida_string_base.construct.c_str.is_null = true
    ∧ zero_terminated heap0 ida_string_base.construct = false
    ∧ ((stream_at [16, 0, 0, 0, 0, 0] 6).read_string heap0 0).1.c_str.is_null = true
    ∧ zero_terminated ((stream_at [16, 0, 0, 0, 0, 0] 6).read_string heap0 0).2.2
        ((stream_at [16, 0, 0, 0, 0, 0] 6).read_string heap0 0).1 = false := by
  decide

/-- C10, amended: in every state the public operations produce, the string either is
the default-constructed value (tag bit set, null pointers), or `c_str()` is a non-null
pointer to live storage (the 16-byte object or the outline block) that holds a zero
byte. -/
theorem reachable_zero_terminated (h : Heap) (s : ida_string_base) (hr : reachable h s) :
    s = construct ∨ zero_terminated h s = true := by
  induction hr with
  | default_constructed h => exact Or.inl rfl
  | from_null h t => exact Or.inr (zero_terminated_zero h)
  | from_borrowed h addr s rest hs hn hwf hroom =>
    right
    by_cases hL : s.length < 16
    · rw [construct_from_inline h addr s rest hs hL]
      exact zero_terminated_inline h s hL (fun b m => (hs b m).2)
    · rw [construct_from_outline h addr s rest hs (by omega) hn hwf hroom]
      refine zero_terminated_tagged _ _ (s ++ [0]) s.length (is_inline_string_of_tagged _ _ hroom)
        (Nat.pos_iff_ne_zero.1 hwf.1) (load_head _ _ _ _ _ _) ?_
      rw [List.getElem?_append_right (le_refl _)]
      simp
  | from_owned h p s rest hp hl =>
    right
    refine zero_terminated_tagged h _ (s ++ 0 :: rest) s.length ?_ hp hl ?_
    · exact is_inline_string_mark _
    · rw [List.getElem?_append_right (le_refl _)]
      simp
  | moved_to h x _ ih => exact ih
  | moved_from h x _ _ => exact Or.inr (zero_terminated_zero h)
  | move_assigned_to h x d _ _ hdis ihx _ =>
    rcases ihx with e | e
    · exact Or.inl e
    · exact Or.inr (zero_terminated_cleanup h x d e hdis)
  | move_assigned_from h x d _ _ _ _ => exact Or.inr (zero_terminated_zero _)
  | assigned h d s rest _ hs hn hwf hroom _ =>
    right
    obtain ⟨hi, hnext, hwf2⟩ := cleanup_self_inline d h hwf
    exact zero_terminated_assign (cleanup_self d h).1 (cleanup_self d h).2 s rest hi hs hn hwf2
      (by rw [hnext]; exact hroom)
  | buffer_called h x n _ hn hwf hroom ih =>
    unfold buffer
    by_cases hlt : length x < n
    · right
      rw [if_pos hlt]
      have h0 := length_nonneg x
      obtain ⟨k, hk⟩ := Int.eq_ofNat_of_zero_le (by omega : 0 ≤ n)
      subst hk
      exact zero_terminated_fit x h k (by omega) hwf (by omega)
    · rw [if_neg hlt]
      exact ih
  | string_read f h n hn hwf hroom =>
    unfold ida_file.read_string buffer
    have hc0 : length construct = 0 := by decide
    by_cases hlt : length construct < n
    · right
      rw [hc0] at hlt
      obtain ⟨k, hk⟩ := Int.eq_ofNat_of_zero_le (by omega : 0 ≤ n)
      subst hk
      have hlt2 : length construct < (k : Int) := by rw [hc0]; exact hlt
      obtain ⟨v, bs, l, hfit, hvl, hv⟩ :=
        fit_outline_buffer_block construct h k (by omega) hwf (by omega)
      have hroom2 : h.next + k + 1 < 2 ^ 63 := by omega
      have ecs : c_str { buffer_start := h.next, buffer_end := 2 ^ 63 + (h.next + k + 1) }
          = char_ptr.heap h.next := by
        unfold c_str
        rw [is_inline_string_of_tagged _ _ hroom2]
        simp
      simp only [if_pos hlt2, hfit, ecs]
      simp only [Heap.store, Int.toNat_zero, List.map_cons, if_true, lt_self_iff_false, if_false]
      refine zero_terminated_tagged _ _ _ k (is_inline_string_of_tagged _ _ hroom2)
        (Nat.pos_iff_ne_zero.1 hwf.1) (load_head _ _ _ _ _ _) ?_
      rw [poke_front_get _ _ k ?_ (by omega)]
      · exact hv
      · have e := size_t_natCast k (by omega)
        have := qfread_length f.file (size_t (k : Int))
        omega
    · left
      have ecs : c_str construct = char_ptr.heap 0 := by decide
      simp only [if_neg hlt, ecs]

/-- Witness of C10 at the string read by `read_string(3)` from a stream holding `Foo`. -/
theorem reachable_zero_terminated_witness :
    reachable ((stream_at [70, 111, 111] 0).read_string heap0 3).2.2
      ((stream_at [70, 111, 111] 0).read_string heap0 3).1
    ∧ (((stream_at [70, 111, 111] 0).read_string heap0 3).1 = ida_string_base.construct
      ∨ zero_terminated ((stream_at [70, 111, 111] 0).read_string heap0 3).2.2
          ((stream_at [70, 111, 111] 0).read_string heap0 3).1 = true) :=
  ⟨reachable.string_read _ heap0 3 (by decide) (by decide) (by decide),
   reachable_zero_terminated _ _
     (reachable.string_read _ heap0 3 (by decide) (by decide) (by decide))⟩

/-- C11: `buffer(20)` on the outline string built from 16 bytes `A`, evaluated.  The
string moves to a block obtained with `qalloc` (21 bytes at `0x1012`), the trace holds
no `qrealloc` and no `qfree`, and the block it owned before (17 bytes at `0x1000`) is
still live, with no owner left. -/
theorem buffer_grow_leaks :
    (buffer
      (construct_from heap0 (some { addr := 256, bytes := List.replicate 16 65 ++ [0] }) false).1
      (construct_from heap0 (some { addr := 256, bytes := List.replicate 16 65 ++ [0] }) false).2
      20).1 = char_ptr.heap 4114
    ∧ (buffer
      (construct_from heap0 (some { addr := 256, bytes := List.replicate 16 65 ++ [0] }) false).1
      (construct_from heap0 (some { addr := 256, bytes := List.replicate 16 65 ++ [0] }) false).2
      20).2.2.log = [heap_event.alloc 4096 17, heap_event.alloc 4114 21]
    ∧ (buffer
      (construct_from heap0 (some { addr := 256, bytes := List.replicate 16 65 ++ [0] }) false).1
      (construct_from heap0 (some { addr := 256, bytes := List.replicate 16 65 ++ [0] }) false).2
      20).2.2.load 4096 = some (List.replicate 16 65 ++ [0])
    ∧ ((buffer
      (construct_from heap0 (some { addr := 256, bytes := List.replicate 16 65 ++ [0] }) false).1
      (construct_from heap0 (some { addr := 256, bytes := List.replicate 16 65 ++ [0] }) false).2
      20).2.2.load 4114).map List.length = some 21 := by
  decide

theorem cleanup_self_is_inline (x : ida_string_base) (h : Heap) :
    is_inline_string (cleanup_self x h).1 = true := by
  unfold cleanup_self
  by_cases hd : is_inline_string x = true
  · rw [if_pos hd]
    exact hd
  · rw [if_neg hd]
    show is_inline_string { buffer_start := 0, buffer_end := 0 } = true
    decide

theorem allocate_outline_string_of_inline (c : ida_string_base) (g : Heap) (string : List Nat)
    (len : Int) (hc : is_inline_string c = true) :
    allocate_outline_string c g string len
      = allocate_outline_string { buffer_start := 0, buffer_end := 0 } g string len := by
  have hz : is_inline_string { buffer_start := 0, buffer_end := 0 } = true := by decide
  unfold allocate_outline_string fit_outline_buffer
  simp only [hc, hz, Bool.or_true, if_true]

theorem assign_tail_eq (c : ida_string_base) (g : Heap) (addr : Nat) (string : List Nat)
    (hc : is_inline_string c = true) :
    (if is_length_suitable_for_inline (to_int32 (qstrlen string)) then
        (place_string_inline c string (to_int32 (qstrlen string)), g)
      else allocate_outline_string c g string (to_int32 (qstrlen string)))
      = construct_from g (some { addr := addr, bytes := string }) false := by
  unfold construct_from
  simp only [Bool.false_eq_true, if_false]
  rw [allocate_outline_string_of_inline c g string _ hc]
  rfl

/-- C12: assignment from a borrowed sequence equals construction.  For every prior state
`x` and every sequence, `x = s` first releases what `x` holds and then leaves exactly the
object and the heap that constructing from `s` on that heap gives.  The release does
nothing for an inline `x` and for a null buffer, and for an outline `x` it is one
`qfree` of its buffer, which removes that block only. -/
theorem assign_equals_construct (x : ida_string_base) (h : Heap) (addr : Nat)
    (string : List Nat) :
    assign_from x h string
      = construct_from (cleanup_self x h).2 (some { addr := addr, bytes := string }) false
    ∧ (is_inline_string x = true ∨ x.buffer_start = 0 → (cleanup_self x h).2 = h)
    ∧ (is_inline_string x = false → x.buffer_start ≠ 0 →
        (cleanup_self x h).2
          = { h with
              blocks := h.blocks.filter (fun b => b.1 ≠ x.buffer_start),
              log := h.log ++ [heap_event.free x.buffer_start] }) := by
  refine ⟨?_, ?_, ?_⟩
  · exact assign_tail_eq (cleanup_self x h).1 (cleanup_self x h).2 addr string
      (cleanup_self_is_inline x h)
  · intro hx
    unfold cleanup_self
    by_cases hi : is_inline_string x = true
    · rw [if_pos hi]
    · rw [if_neg hi]
      rcases hx with hx | hx
      · exact absurd hx hi
      · show qfree h x.buffer_start = h
        unfold qfree
        rw [if_pos hx]
  · intro hx hp
    unfold cleanup_self
    rw [hx]
    simp only [Bool.false_eq_true, if_false]
    unfold qfree
    rw [if_neg hp]

/-- Witness of C12 at the outline string that owns the block at `0x1000`, assigned
`Foo`. -/
theorem assign_equals_construct_witness :
    is_inline_string { buffer_start := 4096, buffer_end := 9223372036854775808 + 4113 } = false
    ∧ (cleanup_self { buffer_start := 4096, buffer_end := 9223372036854775808 + 4113 }
        { blocks := [(4096, List.replicate 16 65 ++ [0])], next := 4114, junk := 205,
          log := [heap_event.alloc 4096 17] }).2
      = { blocks := [], next := 4114, junk := 205,
          log := [heap_event.alloc 4096 17, heap_event.free 4096] } :=
  ⟨by decide,
   (assign_equals_construct { buffer_start := 4096, buffer_end := 9223372036854775808 + 4113 }
      { blocks := [(4096, List.replicate 16 65 ++ [0])], next := 4114, junk := 205,
        log := [heap_event.alloc 4096 17] } 256 [70, 111, 111, 0]).2.2 (by decide) (by decide)⟩

/-- C13: construction with `take_ownership = true`.  For a buffer at `p` holding `L`
bytes, none of them zero, and their terminator, the heap and its trace are untouched,
the tag bit is set, `buffer_start` and `c_str()` are `p` itself, and the untagged
`buffer_end` is `p + L + 1`; this also for `L < 16`. -/
theorem takeover_state (h : Heap) (p : Nat) (s rest : List Nat) (hs : ∀ b ∈ s, b ≠ 0)
    (hn : s.length + 1 < 2147483648) (hp : p + s.length + 1 < 2 ^ 63) :
    (construct_from h (some { addr := p, bytes := s ++ 0 :: rest }) true).2 = h
    ∧ (construct_from h (some { addr := p, bytes := s ++ 0 :: rest }) true).1.is_inline_string
        = false
    ∧ (construct_from h (some { addr := p, bytes := s ++ 0 :: rest }) true).1.buffer_start = p
    ∧ (construct_from h (some { addr := p, bytes := s ++ 0 :: rest }) true).1.c_str
        = char_ptr.heap p
    ∧ (construct_from h (some { addr := p, bytes := s ++ 0 :: rest }) true).1.get_buffer_end
        = p + s.length + 1 := by
  have e0 : to_int32 (qstrlen (s ++ 0 :: rest)) = (s.length : Int) := by
    rw [qstrlen_append s rest hs, to_int32_of_small _ (by omega) (by omega)]
  have e1 : to_int32 ((s.length : Int) + 1) = ((s.length + 1 : Nat) : Int) := by
    rw [to_int32_of_small _ (by omega) (by omega)]
    push_cast
    rfl
  have e2 : size_t ((p : Int) + ((s.length + 1 : Nat) : Int)) = p + s.length + 1 := by
    have := size_t_natCast (p + s.length + 1) (by omega)
    rw [← this]
    push_cast
    ring_nf
  have e : construct_from h (some { addr := p, bytes := s ++ 0 :: rest }) true
      = ({ buffer_start := p, buffer_end := 2 ^ 63 + (p + s.length + 1) }, h) := by
    unfold construct_from takeover_outline_string
    simp only [e0, e1, e2, if_true]
    rw [mark_as_allocated_end _ _ hp]
  rw [e]
  refine ⟨rfl, is_inline_string_of_tagged _ _ hp, rfl, ?_, get_buffer_end_of_tagged _ _ hp⟩
  unfold c_str
  rw [is_inline_string_of_tagged _ _ hp]
  simp

/-- Witness of C13 at the 3-byte buffer `Foo` at address `0x2000`. -/
theorem takeover_state_witness :
    (construct_from heap0 (some { addr := 8192, bytes := [70, 111, 111] ++ 0 :: [] }) true).1.c_str
      = char_ptr.heap 8192
    ∧ (construct_from heap0
        (some { addr := 8192, bytes := [70, 111, 111] ++ 0 :: [] }) true).1.get_buffer_end
      = 8192 + [70, 111, 111].length + 1 :=
  ⟨(takeover_state heap0 8192 [70, 111, 111] [] (by decide) (by decide) (by decide)).2.2.2.1,
   (takeover_state heap0 8192 [70, 111, 111] [] (by decide) (by decide) (by decide)).2.2.2.2⟩

namespace ida_file

theorem read_fields (f : ida_file) (w : Nat) (junk : List Nat) :
    (read f w junk).2.pos = to_int32 (f.pos + w)
    ∧ (read f w junk).2.size = f.size
    ∧ (read f w junk).2.mode = f.mode
    ∧ (read f w junk).2.file = (qfread f.file w).2 := by
  unfold read
  exact ⟨rfl, rfl, rfl, rfl⟩

theorem read_string_file (f : ida_file) (h : Heap) (n : Int) :
    (read_string f h n).2.1
      = { file := (qfread f.file (size_t n)).2, mode := f.mode, pos := to_int32 (f.pos + n),
          size := f.size } := by
  unfold read_string
  simp only
  split <;> rfl

theorem open_file_fields (d : disk) (f : ida_file) (name : Option (List Nat)) (m : open_mode) :
    (open_file d f name m).2.pos = (if is_open f then 0 else f.pos)
    ∧ (open_file d f name m).2.size = f.size
    ∧ (open_file d f name m).1 = (open_file d f name m).2.file.isSome := by
  unfold open_file
  by_cases ho : is_open f = true
  · cases m <;> simp [ho, close_file]
  · cases m <;> simp [ho]

theorem construct_from_opened (d : disk) (h : Heap) (ptr : char_ptr) (m : open_mode) (F : FILE)
    (hopen : (construct_from d h ptr m).file = some F) :
    (construct_from d h ptr m).pos = 0
    ∧ (construct_from d h ptr m).size = to_int32 (F.data.length : Int)
    ∧ F.cursor = 0 := by
  have hself : is_open { file := Option.none, mode := m, pos := 0, size := 0 } = false := rfl
  have hf := open_file_fields d { file := Option.none, mode := m, pos := 0, size := 0 }
    ((ptr.deref h).bind read_cstr) m
  rw [hself] at hf
  simp only [Bool.false_eq_true, if_false] at hf
  obtain ⟨hpos, hsize, hret⟩ := hf
  unfold construct_from at hopen ⊢
  by_cases hn : ptr.is_null = true
  · rw [if_pos hn] at hopen
    exact absurd hopen (by simp)
  · rw [if_neg hn] at hopen ⊢
    simp only at hopen ⊢
    by_cases hr : (open_file d { file := Option.none, mode := m, pos := 0, size := 0 }
        ((ptr.deref h).bind read_cstr) m).1 = true
    · rw [if_pos hr] at hopen ⊢
      simp only at hopen ⊢
      cases hfile : (open_file d { file := Option.none, mode := m, pos := 0, size := 0 }
          ((ptr.deref h).bind read_cstr) m).2.file with
      | none =>
        rw [hfile] at hopen
        exact absurd hopen (by simp)
      | some G =>
        rw [hfile] at hopen
        simp only [Option.map_some', Option.some.injEq] at hopen
        subst hopen
        refine ⟨hpos, ?_, rfl⟩
        simp
    · rw [if_neg hr] at hopen
      rw [hret, hopen] at hr
      exact absurd rfl hr

theorem do_reads_fields (uninit : Nat) (calls : List read_call) :
    ∀ (f : ida_file) (g : Heap), 0 ≤ f.pos → f.pos + (consumed calls : Int) < 2147483648 →
      (do_reads uninit calls (f, g)).1.pos = f.pos + (consumed calls : Int)
      ∧ (do_reads uninit calls (f, g)).1.size = f.size := by
  induction calls with
  | nil =>
    intro f g _ _
    simp [do_reads, consumed]
  | cons c cs ih =>
    intro f g h0 hk
    cases c with
    | scalar w =>
      simp only [consumed, read_call.bytes, Nat.cast_add] at hk ⊢
      obtain ⟨hp, hs, _, _⟩ := read_fields f w (List.replicate w uninit)
      have hp2 : (read f w (List.replicate w uninit)).2.pos = f.pos + (w : Int) := by
        rw [hp, to_int32_of_small _ (by omega) (by omega)]
      have := ih (read f w (List.replicate w uninit)).2 g (by omega) (by omega)
      simp only [do_reads]
      rw [this.1, this.2, hp2, hs]
      exact ⟨by omega, rfl⟩
    | string len =>
      simp only [consumed, read_call.bytes, Nat.cast_add] at hk ⊢
      have hf := read_string_file f g (len : Int)
      have hp2 : (read_string f g (len : Int)).2.1.pos = f.pos + (len : Int) := by
        rw [hf]
        exact to_int32_of_small _ (by omega) (by omega)
      have hs : (read_string f g (len : Int)).2.1.size = f.size := by
        rw [hf]
      have := ih (read_string f g (len : Int)).2.1 (read_string f g (len : Int)).2.2
        (by omega) (by omega)
      simp only [do_reads]
      rw [this.1, this.2, hp2, hs]
      exact ⟨by omega, rfl⟩

end ida_file

/-- C14: the end-of-data test.  For an `ida_file` whose constructor opened a stream of
`N` bytes, after any sequence of `read<T>()` and `read_string(len)` calls that consume
`k` bytes in all, `can_read_more()` is true exactly when `k < N`. -/
theorem can_read_more_iff_consumed (d : disk) (h g : Heap) (ptr : char_ptr) (m : open_mode)
    (F : FILE) (uninit : Nat) (calls : List read_call)
    (hopen : (ida_file.construct_from d h ptr m).file = some F)
    (hN : F.data.length < 2147483648) (hk : consumed calls < 2147483648) :
    (do_reads uninit calls (ida_file.construct_from d h ptr m, g)).1.can_read_more
      = decide (consumed calls < F.data.length) := by
  obtain ⟨hpos, hsize, _⟩ := ida_file.construct_from_opened d h ptr m F hopen
  rw [to_int32_of_small _ (by omega) (by omega)] at hsize
  obtain ⟨hp, hs⟩ := ida_file.do_reads_fields uninit calls (ida_file.construct_from d h ptr m) g
    (by rw [hpos]) (by rw [hpos]; omega)
  unfold ida_file.can_read_more
  rw [hp, hs, hpos, hsize]
  by_cases hlt : consumed calls < F.data.length
  · rw [decide_eq_true hlt]
    apply decide_eq_true
    omega
  · rw [decide_eq_false hlt]
    apply decide_eq_false
    omega

/-- Witness of C14: on a stream of 9 bytes, after `read<uint32>()`, `read<uint16>()` and
`read_string(3)`, that is 9 bytes, `can_read_more()` is false. -/
theorem can_read_more_iff_consumed_witness :
    (do_reads 204 [read_call.scalar 4, read_call.scalar 2, read_call.string 3]
      (ida_file.construct_from (disk_of [([97], [16, 0, 0, 0, 3, 0, 70, 111, 111])]) heap0
        (char_ptr.mem [97, 0]) open_mode.binary_read_only, heap0)).1.can_read_more
      = decide (consumed [read_call.scalar 4, read_call.scalar 2, read_call.string 3]
          < [16, 0, 0, 0, 3, 0, 70, 111, 111].length) :=
  can_read_more_iff_consumed (disk_of [([97], [16, 0, 0, 0, 3, 0, 70, 111, 111])]) heap0 heap0
    (char_ptr.mem [97, 0]) open_mode.binary_read_only
    { data := [16, 0, 0, 0, 3, 0, 70, 111, 111], cursor := 0 } 204
    [read_call.scalar 4, read_call.scalar 2, read_call.string 3] (by decide) (by decide)
    (by decide)

/-- C15: `open_file` and the size, evaluated.  On a default-constructed object,
`open_file` on a file of 6 bytes succeeds and leaves `size` 0, so `can_read_more()` is
false at position 0.  On an object constructed on a file of 6 bytes, `open_file` on a
file of 12 bytes succeeds, resets the position to 0 and leaves `size` 6, so after 6 bytes
are read `can_read_more()` is false although 6 is less than 12. -/
theorem open_file_keeps_size :
    (ida_file.open_file
        (disk_of [([97], [1, 2, 3, 4, 5, 6]), ([98], [1, 2, 3, 4, 5, 6, 7, 8, 9, 10, 11, 12])])
        ida_file.construct (some [97]) open_mode.binary_read_only)
      = (true, { file := some { data := [1, 2, 3, 4, 5, 6], cursor := 0 },
                 mode := open_mode.binary_read_only, pos := 0, size := 0 })
    ∧ (ida_file.open_file
        (disk_of [([97], [1, 2, 3, 4, 5, 6]), ([98], [1, 2, 3, 4, 5, 6, 7, 8, 9, 10, 11, 12])])
        ida_file.construct (some [97]) open_mode.binary_read_only).2.can_read_more = false
    ∧ (ida_file.open_file
        (disk_of [([97], [1, 2, 3, 4, 5, 6]), ([98], [1, 2, 3, 4, 5, 6, 7, 8, 9, 10, 11, 12])])
        (ida_file.construct_from
          (disk_of [([97], [1, 2, 3, 4, 5, 6]), ([98], [1, 2, 3, 4, 5, 6, 7, 8, 9, 10, 11, 12])])
          heap0 (char_ptr.mem [97, 0]) open_mode.binary_read_only)
        (some [98]) open_mode.binary_read_only)
      = (true, { file := some { data := [1, 2, 3, 4, 5, 6, 7, 8, 9, 10, 11, 12], cursor := 0 },
                 mode := open_mode.binary_read_only, pos := 0, size := 6 })
    ∧ (do_reads 204 [read_call.scalar 4, read_call.scalar 2]
        ((ida_file.open_file
          (disk_of [([97], [1, 2, 3, 4, 5, 6]), ([98], [1, 2, 3, 4, 5, 6, 7, 8, 9, 10, 11, 12])])
          (ida_file.construct_from
            (disk_of [([97], [1, 2, 3, 4, 5, 6]), ([98], [1, 2, 3, 4, 5, 6, 7, 8, 9, 10, 11, 12])])
            heap0 (char_ptr.mem [97, 0]) open_mode.binary_read_only)
          (some [98]) open_mode.binary_read_only).2, heap0)).1.can_read_more = false := by
  decide

theorem ida_file.closed_of_no_file (f : ida_file) (hf : f.file = Option.none) (hp : f.pos = 0)
    (hs : f.size = 0) :
    f.is_open = false ∧ f.can_write = false ∧ f.can_read_more = false := by
  unfold ida_file.can_write ida_file.is_open ida_file.can_read_more
  rw [hf, hp, hs]
  simp

theorem ida_file.construct_from_no_file (d : disk) (h : Heap) (ptr : char_ptr) (m : open_mode)
    (hf : (ida_file.construct_from d h ptr m).file = Option.none) :
    (ida_file.construct_from d h ptr m).pos = 0 ∧ (ida_file.construct_from d h ptr m).size = 0 := by
  have hself : ida_file.is_open { file := Option.none, mode := m, pos := 0, size := 0 } = false :=
    rfl
  have hfl := ida_file.open_file_fields d { file := Option.none, mode := m, pos := 0, size := 0 }
    ((ptr.deref h).bind read_cstr) m
  rw [hself] at hfl
  simp only [Bool.false_eq_true, if_false] at hfl
  obtain ⟨hpos, hsize, hret⟩ := hfl
  unfold ida_file.construct_from at hf ⊢
  by_cases hn : ptr.is_null = true
  · rw [if_pos hn]
    exact ⟨rfl, rfl⟩
  · rw [if_neg hn] at hf ⊢
    simp only at hf ⊢
    by_cases hr : (ida_file.open_file d { file := Option.none, mode := m, pos := 0, size := 0 }
        ((ptr.deref h).bind read_cstr) m).1 = true
    · rw [if_pos hr] at hf
      simp only [Option.map_eq_none'] at hf
      rw [hret, hf] at hr
      exact absurd hr (by simp)
    · rw [if_neg hr]
      exact ⟨hpos, hsize⟩

/-- C16: a failed open is closed.  The constructor holds no handle when the path is null
and when the mode is `none`; whenever it holds no handle (the open returned none),
`is_open()`, `can_write()` and `can_read_more()` are false, and the same after a failed
`open_file` on a default-constructed object; and when the file that `run` constructs
holds no handle, `run` ends without any call of `set_name`, whatever the fuel. -/
theorem failed_open_is_closed (d : disk) (h g : Heap) (ptr : char_ptr) (m : open_mode)
    (name : Option (List Nat)) (env : host) (fuel : Nat) :
    (ptr.is_null = true → (ida_file.construct_from d h ptr m).file = Option.none)
    ∧ (ida_file.construct_from d h ptr open_mode.none).file = Option.none
    ∧ ((ida_file.construct_from d h ptr m).file = Option.none →
        (ida_file.construct_from d h ptr m).is_open = false
        ∧ (ida_file.construct_from d h ptr m).can_write = false
        ∧ (ida_file.construct_from d h ptr m).can_read_more = false)
    ∧ ((ida_file.open_file d ida_file.construct name m).1 = false →
        (ida_file.open_file d ida_file.construct name m).2.is_open = false
        ∧ (ida_file.open_file d ida_file.construct name m).2.can_write = false
        ∧ (ida_file.open_file d ida_file.construct name m).2.can_read_more = false)
    ∧ ((ida_file.construct_from env.files (construct_from g env.ask_file false).2
          (construct_from g env.ask_file false).1.c_str open_mode.binary_read_only).file
          = Option.none →
        (run env g fuel).map (fun r => r.1) = some []) := by
  refine ⟨?_, ?_, ?_, ?_, ?_⟩
  · intro hn
    unfold ida_file.construct_from
    rw [if_pos hn]
  · unfold ida_file.construct_from ida_file.open_file
    by_cases hn : ptr.is_null = true
    · rw [if_pos hn]
    · rw [if_neg hn]
      simp [ida_file.is_open]
  · intro hf
    obtain ⟨hp, hs⟩ := ida_file.construct_from_no_file d h ptr m hf
    exact ida_file.closed_of_no_file _ hf hp hs
  · intro hr
    obtain ⟨hp, hs, hret⟩ := ida_file.open_file_fields d ida_file.construct name m
    have hc : ida_file.is_open ida_file.construct = false := rfl
    rw [hc] at hp
    simp only [Bool.false_eq_true, if_false] at hp
    rw [hret] at hr
    have hf : (ida_file.open_file d ida_file.construct name m).2.file = Option.none := by
      cases hx : (ida_file.open_file d ida_file.construct name m).2.file with
      | none => rfl
      | some F =>
        rw [hx] at hr
        exact absurd hr (by simp)
    exact ida_file.closed_of_no_file _ hf hp hs
  · intro hf
    have ho := (ida_file.closed_of_no_file _ hf
      (ida_file.construct_from_no_file _ _ _ _ hf).1
      (ida_file.construct_from_no_file _ _ _ _ hf).2).1
    unfold run
    simp only [ho, Bool.false_eq_true, if_false, Option.map_some']

/-- Witness of C16: the picker answers the path `b`, no file opens, `run` makes no
call. -/
theorem failed_open_is_closed_witness :
    (ida_file.construct_from (disk_of []) heap0 (char_ptr.mem [98, 0])
        open_mode.binary_read_only).file = Option.none
    ∧ (ida_file.construct_from (disk_of []) heap0 (char_ptr.mem [98, 0])
        open_mode.binary_read_only).can_read_more = false
    ∧ (run { ask_file := some { addr := 256, bytes := [98, 0] }, files := disk_of [],
             get_imagebase := 4194304, uninit := 204 } heap0 5).map (fun r => r.1) = some [] :=
  ⟨by decide,
   ((failed_open_is_closed (disk_of []) heap0 heap0 (char_ptr.mem [98, 0])
      open_mode.binary_read_only (some [98])
      { ask_file := some { addr := 256, bytes := [98, 0] }, files := disk_of [],
        get_imagebase := 4194304, uninit := 204 } 5).2.2.1 (by decide)).2.2,
   (failed_open_is_closed (disk_of []) heap0 heap0 (char_ptr.mem [98, 0])
      open_mode.binary_read_only (some [98])
      { ask_file := some { addr := 256, bytes := [98, 0] }, files := disk_of [],
        get_imagebase := 4194304, uninit := 204 } 5).2.2.2.2 (by decide)⟩

/-- C17: close is idempotent.  For every state, `close_file` twice gives the state
`close_file` gives once, and after `close_file` the handle is null, the mode is `none`,
the position is 0 and `is_open()` is false. -/
theorem close_file_idempotent (s : ida_file) :
    s.close_file.close_file = s.close_file
    ∧ s.close_file.is_open = false
    ∧ s.close_file.file = Option.none
    ∧ s.close_file.mode = open_mode.none
    ∧ s.close_file.pos = 0 :=
  ⟨rfl, rfl, rfl, rfl, rfl⟩

/-- C18: the scalar read.  `read<T>()` for a `T` of `w` bytes always sets the position to
`pos + w` (as an `int`), whatever remains in the stream, and keeps size, mode and the
bytes of the stream; at position `p` with at least `w` bytes remaining it returns the
little-endian value of the bytes at `p .. p + w - 1` and the position is exactly
`p + w`. -/
theorem scalar_read (data junk : List Nat) (p w : Nat) (m : open_mode) (size : Int)
    (f : ida_file) (hj : junk.length = w) (hw : p + w ≤ data.length)
    (hp : p + w < 2147483648) :
    ((f.read w junk).2.pos = to_int32 (f.pos + w)
      ∧ (f.read w junk).2.size = f.size
      ∧ (f.read w junk).2.mode = f.mode
      ∧ (f.read w junk).2.file.map (fun F => F.data) = f.file.map (fun F => F.data))
    ∧ ida_file.read
        { file := some { data := data, cursor := p }, mode := m, pos := p, size := size } w junk
      = (le_decode ((data.drop p).take w),
         { file := some { data := data, cursor := p + w }, mode := m,
           pos := ((p + w : Nat) : Int), size := size }) := by
  constructor
  · obtain ⟨h1, h2, h3, h4⟩ := ida_file.read_fields f w junk
    refine ⟨h1, h2, h3, ?_⟩
    rw [h4]
    unfold qfread
    cases f.file <;> rfl
  · unfold ida_file.read qfread
    have hl : ((data.drop p).take w).length = w := by
      rw [List.length_take, List.length_drop]
      omega
    have e2 : to_int32 ((p : Int) + (w : Int)) = ((p + w : Nat) : Int) := by
      rw [to_int32_of_small _ (by omega) (by omega)]
      push_cast
      rfl
    simp only [e2, hl]
    rw [poke_zero_exact _ _ (by rw [hl, hj])]

/-- Witness of C18: `read<uint32>()` at position 0 of the bytes `10 00 00 00 03 00`
returns `0x10` and leaves the position at 4. -/
theorem scalar_read_witness :
    ida_file.read
        { file := some { data := [16, 0, 0, 0, 3, 0], cursor := 0 },
          mode := open_mode.binary_read_only, pos := (0 : Nat), size := 6 } 4 [204, 204, 204, 204]
      = (le_decode (([16, 0, 0, 0, 3, 0].drop 0).take 4),
         { file := some { data := [16, 0, 0, 0, 3, 0], cursor := 0 + 4 },
           mode := open_mode.binary_read_only, pos := ((0 + 4 : Nat) : Int), size := 6 }) :=
  (scalar_read [16, 0, 0, 0, 3, 0] [204, 204, 204, 204] 0 4 open_mode.binary_read_only 6
    ida_file.construct (by decide) (by decide) (by decide)).2

/-! ## Lemmas on the iterations of the loop -/

theorem run_loop_zero (base uninit : Nat) (f : ida_file) (h : Heap) (calls : List name_call) :
    run_loop base uninit 0 f h calls
      = if f.can_read_more then Option.none else some (calls, f, h) := rfl

theorem run_loop_succ (base uninit fuel : Nat) (f : ida_file) (h : Heap)
    (calls : List name_call) :
    run_loop base uninit (fuel + 1) f h calls
      = if f.can_read_more then
          run_loop base uninit fuel (loop_body base uninit (f, h, calls)).1
            (loop_body base uninit (f, h, calls)).2.1 (loop_body base uninit (f, h, calls)).2.2
        else some (calls, f, h) := rfl

/-- The loop makes exactly `j` iterations when the test holds before each of the first
`j` iterations and fails after them. -/
theorem run_loop_eq_iterate (base uninit : Nat) :
    ∀ (j fuel : Nat) (s : ida_file × Heap × List name_call),
      (∀ i, i < j → (Nat.iterate (loop_body base uninit) i s).1.can_read_more = true) →
      (Nat.iterate (loop_body base uninit) j s).1.can_read_more = false →
      j ≤ fuel →
      run_loop base uninit fuel s.1 s.2.1 s.2.2
        = some ((Nat.iterate (loop_body base uninit) j s).2.2,
                (Nat.iterate (loop_body base uninit) j s).1,
                (Nat.iterate (loop_body base uninit) j s).2.1) := by
  intro j
  induction j with
  | zero =>
    intro fuel s _ hstop _
    simp only [Function.iterate_zero, id_eq] at hstop ⊢
    cases fuel with
    | zero => rw [run_loop_zero, hstop]; simp
    | succ fuel => rw [run_loop_succ, hstop]; simp
  | succ j ih =>
    intro fuel s hgo hstop hfuel
    cases fuel with
    | zero => omega
    | succ fuel =>
      have h0 : s.1.can_read_more = true := hgo 0 (by omega)
      rw [run_loop_succ, h0, if_pos rfl]
      have := ih fuel (loop_body base uninit s)
        (fun i hi => by
          have := hgo (i + 1) (by omega)
          rwa [Function.iterate_succ_apply] at this)
        (by rwa [Function.iterate_succ_apply] at hstop)
        (by omega)
      rw [Function.iterate_succ_apply]
      exact this

theorem encode_records_append (a b : List record) :
    encode_records (a ++ b) = encode_records a ++ encode_records b := by
  induction a with
  | nil => rfl
  | cons r a ih =>
    rw [List.cons_append]
    simp only [encode_records]
    rw [ih, List.append_assoc]

theorem loop_body_stream (base uninit : Nat) (data : List Nat) (k : Nat) (r : record)
    (rest : List Nat) (h : Heap) (calls : List name_call)
    (hd : data.drop k = encode_record r ++ rest) (ho : r.offset < 4294967296)
    (hn : r.name.length < 65536) (hk : k + 6 + r.name.length < 2147483648) :
    (loop_body base uninit (stream_at data k, h, calls)).1
      = stream_at data (k + 6 + r.name.length) := by
  have hd1 : data.drop k
      = le_encode 4 r.offset ++ (le_encode 2 r.name.length ++ r.name ++ rest) := by
    rw [hd]
    simp only [encode_record, List.append_assoc]
  have hd2 : data.drop (k + 4) = le_encode 2 r.name.length ++ (r.name ++ rest) := by
    rw [← List.drop_drop, hd1, List.drop_left' (le_encode_length 4 r.offset)]
    simp only [List.append_assoc]
  have hd3 : data.drop (k + 4 + 2) = r.name ++ rest := by
    rw [← List.drop_drop, hd2, List.drop_left' (le_encode_length 2 r.name.length)]
  unfold loop_body
  simp only
  rw [ida_file.read_string_file]
  unfold stream_at
  rw [ida_file.read_at _ k 4 r.offset _ _ _ _ hd1 (by norm_num; omega) (by simp) (by omega)]
  simp only
  rw [ida_file.read_at _ (k + 4) 2 r.name.length _ _ _ _ hd2 (by norm_num; omega) (by simp)
    (by omega)]
  simp only
  have e1 : size_t (r.name.length : Int) = r.name.length := size_t_natCast _ (by omega)
  have e2 : to_int32 (((k + 4 + 2 : Nat) : Int) + (r.name.length : Int))
      = ((k + 6 + r.name.length : Nat) : Int) := by
    rw [to_int32_of_small _ (by omega) (by omega)]
    push_cast
    ring
  have e3 : ((data.drop (k + 4 + 2)).take r.name.length).length = r.name.length := by
    rw [hd3, List.take_left' rfl]
  unfold qfread
  simp only [e1, e2, e3]

/-- The state at each iteration boundary of the loop on a stream that starts with the
encodings of `pre`. -/
theorem iterate_stream (base uninit : Nat) (h : Heap) (pre : List record) :
    ∀ (post : List record) (tail : List Nat),
      (∀ r ∈ pre, r.offset < 4294967296 ∧ r.name.length < 65536) →
      (encode_records pre).length < 2147483648 →
      ∃ g calls,
        Nat.iterate (loop_body base uninit) pre.length
            (stream_at (encode_records (pre ++ post) ++ tail) 0, h, [])
          = (stream_at (encode_records (pre ++ post) ++ tail) (encode_records pre).length,
             g, calls) := by
  induction pre using List.reverseRecOn with
  | nil =>
    intro post tail _ _
    exact ⟨h, [], rfl⟩
  | append_singleton pre r ih =>
    intro post tail hrs hsize
    have hr := hrs r (by simp)
    have hlen : (encode_records (pre ++ [r])).length
        = (encode_records pre).length + 6 + r.name.length := by
      rw [encode_records_append]
      simp only [encode_records, List.append_nil, List.length_append, encode_record_length]
      omega
    obtain ⟨g, calls, hi⟩ := ih (r :: post) tail
      (fun q m => hrs q (List.mem_append_left _ m)) (by omega)
    have hdata : encode_records (pre ++ [r] ++ post) ++ tail
        = encode_records (pre ++ r :: post) ++ tail := by
      simp
    rw [hdata, List.length_append, List.length_singleton, Function.iterate_succ_apply', hi]
    have hd : (encode_records (pre ++ r :: post) ++ tail).drop (encode_records pre).length
        = encode_record r ++ (encode_records post ++ tail) := by
      rw [encode_records_append, List.append_assoc, List.drop_left]
      simp only [encode_records, List.append_assoc]
    have hb := loop_body_stream base uninit _ _ r _ g calls hd hr.1 hr.2 (by omega)
    refine ⟨(loop_body base uninit
        (stream_at (encode_records (pre ++ r :: post) ++ tail) (encode_records pre).length,
          g, calls)).2.1,
      (loop_body base uninit
        (stream_at (encode_records (pre ++ r :: post) ++ tail) (encode_records pre).length,
          g, calls)).2.2, ?_⟩
    rw [hlen, ← hb]

theorem iterate_at (base uninit : Nat) (h : Heap) (rs : List record) (j : Nat)
    (hj : j ≤ rs.length) (hrs : ∀ r ∈ rs, r.offset < 4294967296 ∧ r.name.length < 65536)
    (hsize : (encode_records rs).length < 2147483648) :
    (∃ g calls, Nat.iterate (loop_body base uninit) j (stream_at (encode_records rs) 0, h, [])
        = (stream_at (encode_records rs) (encode_records (rs.take j)).length, g, calls))
    ∧ (encode_records (rs.take j)).length ≤ (encode_records rs).length
    ∧ (j < rs.length → (encode_records (rs.take j)).length < (encode_records rs).length)
    ∧ (j = rs.length → (encode_records (rs.take j)).length = (encode_records rs).length) := by
  have hsplit : encode_records rs
      = encode_records (rs.take j) ++ encode_records (rs.drop j) := by
    rw [← encode_records_append, List.take_append_drop]
  have hlen : (encode_records rs).length
      = (encode_records (rs.take j)).length + (encode_records (rs.drop j)).length := by
    have := congrArg List.length hsplit
    rw [List.length_append] at this
    exact this
  refine ⟨?_, by omega, ?_, ?_⟩
  · have := iterate_stream base uninit h (rs.take j) (rs.drop j) []
      (fun r m => hrs r (List.mem_of_mem_take m)) (by omega)
    rw [List.take_append_drop, List.append_nil, List.length_take, Nat.min_eq_left hj] at this
    exact this
  · intro hlt
    cases hd : rs.drop j with
    | nil =>
      have := congrArg List.length hd
      rw [List.length_drop, List.length_nil] at this
      omega
    | cons r t =>
      rw [hd] at hlen
      simp only [encode_records, List.length_append, encode_record_length] at hlen
      omega
  · intro he
    subst he
    rw [List.take_length]

/-- C19: the cursor invariant on a well-formed stream.  On the stream made of the
encodings of the records `rs`, the state after `j` iterations of the loop body, for every
`j` up to the number of records, has `0 <= pos <= size` with `size` the length of the
stream, and the loop test holds exactly when `j` is less than the number of records; the
iteration that reads the record `r` advances `pos` by exactly `6 + n`, `n` the length
of its name; and with enough fuel the loop returns the state after one iteration per
record, in which `pos = size`. -/
theorem cursor_invariant (base uninit : Nat) (h : Heap) (rs : List record)
    (hrs : ∀ r ∈ rs, r.offset < 4294967296 ∧ r.name.length < 65536)
    (hsize : (encode_records rs).length < 2147483648) :
    (∀ j, j ≤ rs.length →
      0 ≤ (Nat.iterate (loop_body base uninit) j (stream_at (encode_records rs) 0, h, [])).1.pos
      ∧ (Nat.iterate (loop_body base uninit) j (stream_at (encode_records rs) 0, h, [])).1.pos
          ≤ (Nat.iterate (loop_body base uninit) j (stream_at (encode_records rs) 0, h, [])).1.size
      ∧ (Nat.iterate (loop_body base uninit) j (stream_at (encode_records rs) 0, h, [])).1.size
          = ((encode_records rs).length : Int)
      ∧ (Nat.iterate (loop_body base uninit) j
            (stream_at (encode_records rs) 0, h, [])).1.can_read_more
          = decide (j < rs.length))
    ∧ (∀ pre r post, rs = pre ++ r :: post →
      (Nat.iterate (loop_body base uninit) (pre.length + 1)
          (stream_at (encode_records rs) 0, h, [])).1.pos
        = (Nat.iterate (loop_body base uninit) pre.length
            (stream_at (encode_records rs) 0, h, [])).1.pos + 6 + (r.name.length : Int))
    ∧ (∀ fuel, rs.length ≤ fuel →
      run_loop base uninit fuel (stream_at (encode_records rs) 0) h []
        = some
          ((Nat.iterate (loop_body base uninit) rs.length
              (stream_at (encode_records rs) 0, h, [])).2.2,
           (Nat.iterate (loop_body base uninit) rs.length
              (stream_at (encode_records rs) 0, h, [])).1,
           (Nat.iterate (loop_body base uninit) rs.length
              (stream_at (encode_records rs) 0, h, [])).2.1))
    ∧ (Nat.iterate (loop_body base uninit) rs.length
          (stream_at (encode_records rs) 0, h, [])).1.pos
        = (Nat.iterate (loop_body base uninit) rs.length
            (stream_at (encode_records rs) 0, h, [])).1.size := by
  have hbound : ∀ j, j ≤ rs.length →
      0 ≤ (Nat.iterate (loop_body base uninit) j (stream_at (encode_records rs) 0, h, [])).1.pos
      ∧ (Nat.iterate (loop_body base uninit) j (stream_at (encode_records rs) 0, h, [])).1.pos
          ≤ (Nat.iterate (loop_body base uninit) j (stream_at (encode_records rs) 0, h, [])).1.size
      ∧ (Nat.iterate (loop_body base uninit) j (stream_at (encode_records rs) 0, h, [])).1.size
          = ((encode_records rs).length : Int)
      ∧ (Nat.iterate (loop_body base uninit) j
            (stream_at (encode_records rs) 0, h, [])).1.can_read_more
          = decide (j < rs.length) := by
    intro j hj
    obtain ⟨⟨g, calls, hst⟩, hle, hlt, heq⟩ := iterate_at base uninit h rs j hj hrs hsize
    rw [hst]
    refine ⟨?_, ?_, rfl, ?_⟩
    · show (0 : Int) ≤ ((encode_records (rs.take j)).length : Int)
      omega
    · show ((encode_records (rs.take j)).length : Int) ≤ ((encode_records rs).length : Int)
      omega
    · show decide (((encode_records (rs.take j)).length : Int) < ((encode_records rs).length : Int))
        = decide (j < rs.length)
      by_cases hjl : j < rs.length
      · have := hlt hjl
        rw [decide_eq_true hjl]
        apply decide_eq_true
        omega
      · have := heq (by omega)
        rw [decide_eq_false hjl]
        apply decide_eq_false
        omega
  refine ⟨hbound, ?_, ?_, ?_⟩
  · intro pre r post he
    have h1 : pre.length + 1 ≤ rs.length := by
      rw [he, List.length_append, List.length_cons]
      omega
    obtain ⟨⟨g1, c1, hs1⟩, _⟩ := iterate_at base uninit h rs (pre.length + 1) h1 hrs hsize
    obtain ⟨⟨g0, c0, hs0⟩, _⟩ := iterate_at base uninit h rs pre.length (by omega) hrs hsize
    rw [hs1, hs0]
    have t1 : rs.take (pre.length + 1) = pre ++ [r] := by
      rw [he]
      have : pre ++ r :: post = (pre ++ [r]) ++ post := by simp
      rw [this]
      exact List.take_left' (by simp)
    have t0 : rs.take pre.length = pre := by
      rw [he]
      exact List.take_left' rfl
    rw [t1, t0, encode_records_append]
    show (((encode_records pre ++ encode_records [r]).length : Nat) : Int)
      = ((encode_records pre).length : Int) + 6 + (r.name.length : Int)
    simp only [encode_records, List.append_nil, List.length_append, encode_record_length]
    push_cast
    ring
  · intro fuel hfuel
    exact run_loop_eq_iterate base uninit rs.length fuel (stream_at (encode_records rs) 0, h, [])
      (fun i hi => by
        rw [(hbound i (by omega)).2.2.2]
        exact decide_eq_true hi)
      (by
        rw [(hbound rs.length (le_refl _)).2.2.2]
        exact decide_eq_false (by omega))
      hfuel
  · obtain ⟨⟨g, calls, hst⟩, _, _, heq⟩ :=
      iterate_at base uninit h rs rs.length (le_refl _) hrs hsize
    rw [hst]
    show (((encode_records (rs.take rs.length)).length : Nat) : Int)
      = ((encode_records rs).length : Int)
    rw [heq rfl]

/-- Witness of C19 on the stream of the records (`0x10`, `Foo`), (`0x20`, `Bar`): the
loop ends, after two iterations, with `pos = size`. -/
theorem cursor_invariant_witness :
    (Nat.iterate (loop_body 4194304 204) 2
        (stream_at (encode_records
          [{ offset := 16, name := [70, 111, 111] }, { offset := 32, name := [66, 97, 114] }]) 0,
          heap0, [])).1.pos
      = (Nat.iterate (loop_body 4194304 204) 2
          (stream_at (encode_records
            [{ offset := 16, name := [70, 111, 111] }, { offset := 32, name := [66, 97, 114] }]) 0,
            heap0, [])).1.size :=
  (cursor_invariant 4194304 204 heap0
    [{ offset := 16, name := [70, 111, 111] }, { offset := 32, name := [66, 97, 114] }]
    (by decide) (by decide)).2.2.2

theorem poke_mem (dst : List Nat) (off : Nat) (src : List Nat) (b : Nat)
    (m : b ∈ poke dst off src) : b ∈ dst ∨ b ∈ src := by
  unfold poke at m
  have m1 := List.mem_of_mem_take m
  rcases List.mem_append.1 m1 with m2 | m2
  · rcases List.mem_append.1 m2 with m3 | m3
    · exact Or.inl (List.mem_of_mem_take m3)
    · exact Or.inr m3
  · exact Or.inl (List.mem_of_mem_drop m2)

theorem stream_bytes_qfread (file : Option FILE) (n : Nat) (hf : stream_bytes file) :
    stream_bytes (qfread file n).2 ∧ ∀ b ∈ (qfread file n).1, b < 256 := by
  unfold qfread
  cases file with
  | none =>
    refine ⟨?_, ?_⟩
    · intro F e
      exact absurd e (by simp)
    · intro b m
      exact absurd m (by simp)
  | some G =>
    refine ⟨?_, ?_⟩
    · intro F e
      simp only [Option.some.injEq] at e
      subst e
      exact hf G rfl
    · intro b m
      exact hf G rfl b (List.mem_of_mem_drop (List.mem_of_mem_take m))

theorem ida_file.read_value_lt (f : ida_file) (w : Nat) (junk : List Nat)
    (hj : ∀ b ∈ junk, b < 256) (hf : stream_bytes f.file) :
    (f.read w junk).1 < 256 ^ junk.length := by
  unfold ida_file.read
  simp only
  have := le_decode_lt (poke junk 0 (qfread f.file w).1) (by
    intro b m
    rcases poke_mem _ _ _ _ m with m1 | m1
    · exact hj b m1
    · exact (stream_bytes_qfread f.file w hf).2 b m1)
  rw [poke_length] at this
  exact this

/-- One iteration of the loop body, on the position, the size and the stream. -/
theorem loop_body_step (base uninit : Nat) (s : ida_file × Heap × List name_call)
    (hu : uninit < 256) (hf : stream_bytes s.1.file) (h0 : 0 ≤ s.1.pos)
    (hlt : s.1.pos < s.1.size) (hs : s.1.size + 65541 < 2147483648) :
    (loop_body base uninit s).1.size = s.1.size
    ∧ stream_bytes (loop_body base uninit s).1.file
    ∧ s.1.pos + 6 ≤ (loop_body base uninit s).1.pos
    ∧ (loop_body base uninit s).1.pos ≤ s.1.pos + 6 + 65535 := by
  have hj4 : ∀ b ∈ List.replicate 4 uninit, b < 256 := fun b m => by
    rw [List.eq_of_mem_replicate m]
    exact hu
  have hj2 : ∀ b ∈ List.replicate 2 uninit, b < 256 := fun b m => by
    rw [List.eq_of_mem_replicate m]
    exact hu
  obtain ⟨p1, s1, _, f1⟩ := ida_file.read_fields s.1 4 (List.replicate 4 uninit)
  obtain ⟨p2, s2, _, f2⟩ := ida_file.read_fields (s.1.read 4 (List.replicate 4 uninit)).2 2
    (List.replicate 2 uninit)
  have hb1 : stream_bytes (s.1.read 4 (List.replicate 4 uninit)).2.file := by
    rw [f1]
    exact (stream_bytes_qfread _ _ hf).1
  have hb2 : stream_bytes
      ((s.1.read 4 (List.replicate 4 uninit)).2.read 2 (List.replicate 2 uninit)).2.file := by
    rw [f2]
    exact (stream_bytes_qfread _ _ hb1).1
  have hn := ida_file.read_value_lt (s.1.read 4 (List.replicate 4 uninit)).2 2
    (List.replicate 2 uninit) hj2 hb1
  rw [List.length_replicate] at hn
  have hn2 : ((s.1.read 4 (List.replicate 4 uninit)).2.read 2 (List.replicate 2 uninit)).1
      < 65536 := by
    norm_num at hn
    exact hn
  have e1 : (s.1.read 4 (List.replicate 4 uninit)).2.pos = s.1.pos + 4 := by
    rw [p1, to_int32_of_small _ (by omega) (by omega)]
    rfl
  have e2 : ((s.1.read 4 (List.replicate 4 uninit)).2.read 2 (List.replicate 2 uninit)).2.pos
      = s.1.pos + 6 := by
    rw [p2, e1, to_int32_of_small _ (by push_cast; omega) (by push_cast; omega)]
    push_cast
    ring
  have hbody : (loop_body base uninit s).1
      = (((s.1.read 4 (List.replicate 4 uninit)).2.read 2 (List.replicate 2 uninit)).2.read_string
          s.2.1
          ((s.1.read 4 (List.replicate 4 uninit)).2.read 2 (List.replicate 2 uninit)).1).2.1 :=
    rfl
  rw [hbody, ida_file.read_string_file]
  simp only
  rw [e2, s2, s1, to_int32_of_small _ (by omega) (by omega)]
  exact ⟨rfl, (stream_bytes_qfread _ _ hb2).1, by omega, by omega⟩

/-- The loop test fails after at most `m` iterations when `size - pos + 5` is at most
`6 * m`; until then each iteration adds at least 6 to `pos` and keeps `size`. -/
theorem exists_exit (base uninit : Nat) (size : Int) (hu : uninit < 256)
    (hs : size + 65541 < 2147483648) :
    ∀ (m : Nat) (s : ida_file × Heap × List name_call),
      stream_bytes s.1.file → 0 ≤ s.1.pos → s.1.size = size →
      ((size - s.1.pos).toNat + 5) / 6 ≤ m →
      ∃ j, j ≤ m
        ∧ (∀ i, i < j →
            (Nat.iterate (loop_body base uninit) i s).1.can_read_more = true
            ∧ (Nat.iterate (loop_body base uninit) i s).1.pos + 6
                ≤ (Nat.iterate (loop_body base uninit) (i + 1) s).1.pos)
        ∧ (Nat.iterate (loop_body base uninit) j s).1.can_read_more = false
        ∧ size ≤ (Nat.iterate (loop_body base uninit) j s).1.pos
        ∧ (Nat.iterate (loop_body base uninit) j s).1.size = size := by
  intro m
  induction m with
  | zero =>
    intro s _ _ hsz hm
    have hge : size ≤ s.1.pos := by omega
    refine ⟨0, le_refl _, fun i hi => absurd hi (by omega), ?_, hge, hsz⟩
    show decide (s.1.pos < s.1.size) = false
    apply decide_eq_false
    omega
  | succ m ih =>
    intro s hf h0 hsz hm
    by_cases hlt : s.1.pos < s.1.size
    · obtain ⟨b1, b2, b3, _⟩ := loop_body_step base uninit s hu hf h0 hlt (by omega)
      obtain ⟨j, hj, hgo, hstop, hge, hsize⟩ := ih (loop_body base uninit s) b2 (by omega)
        (by rw [b1, hsz]) (by omega)
      refine ⟨j + 1, by omega, ?_, ?_, ?_, ?_⟩
      · intro i hi
        cases i with
        | zero =>
          refine ⟨decide_eq_true hlt, ?_⟩
          simp only [Function.iterate_zero, id_eq, Function.iterate_succ_apply]
          exact b3
        | succ i =>
          have := hgo i (by omega)
          simp only [Function.iterate_succ_apply] at this ⊢
          exact this
      · rw [Function.iterate_succ_apply]
        exact hstop
      · rw [Function.iterate_succ_apply]
        exact hge
      · rw [Function.iterate_succ_apply]
        exact hsize
    · refine ⟨0, by omega, fun i hi => absurd hi (by omega), ?_, by
        simp only [Function.iterate_zero, id_eq]
        omega, hsz⟩
      show decide (s.1.pos < s.1.size) = false
      exact decide_eq_false hlt

theorem loop_body_header (base uninit : Nat) (data : List Nat) (k off n : Nat)
    (rest : List Nat) (h : Heap) (calls : List name_call)
    (hd : data.drop k = le_encode 4 off ++ (le_encode 2 n ++ rest)) (ho : off < 4294967296)
    (hn : n < 65536) (hk : k + 6 + n < 2147483648) :
    (loop_body base uninit (stream_at data k, h, calls)).1.pos = ((k + 6 + n : Nat) : Int)
    ∧ (loop_body base uninit (stream_at data k, h, calls)).1.size = (data.length : Int) := by
  have hd2 : data.drop (k + 4) = le_encode 2 n ++ rest := by
    rw [← List.drop_drop, hd, List.drop_left' (le_encode_length 4 off)]
  unfold loop_body
  simp only
  rw [ida_file.read_string_file]
  unfold stream_at
  rw [ida_file.read_at _ k 4 off _ _ _ _ hd (by norm_num; omega) (by simp) (by omega)]
  simp only
  rw [ida_file.read_at _ (k + 4) 2 n _ _ _ _ hd2 (by norm_num; omega) (by simp) (by omega)]
  simp only
  refine ⟨?_, trivial⟩
  rw [to_int32_of_small _ (by omega) (by omega)]
  push_cast
  ring

theorem iterate_at_tail (base uninit : Nat) (h : Heap) (rs : List record) (tail : List Nat)
    (j : Nat) (hj : j ≤ rs.length)
    (hrs : ∀ r ∈ rs, r.offset < 4294967296 ∧ r.name.length < 65536)
    (hsize : (encode_records rs).length < 2147483648) :
    (∃ g calls,
      Nat.iterate (loop_body base uninit) j (stream_at (encode_records rs ++ tail) 0, h, [])
        = (stream_at (encode_records rs ++ tail) (encode_records (rs.take j)).length, g, calls))
    ∧ (encode_records (rs.take j)).length ≤ (encode_records rs).length := by
  have hsplit : encode_records rs
      = encode_records (rs.take j) ++ encode_records (rs.drop j) := by
    rw [← encode_records_append, List.take_append_drop]
  have hlen : (encode_records rs).length
      = (encode_records (rs.take j)).length + (encode_records (rs.drop j)).length := by
    have := congrArg List.length hsplit
    rw [List.length_append] at this
    exact this
  refine ⟨?_, by omega⟩
  have := iterate_stream base uninit h (rs.take j) (rs.drop j) tail
    (fun r m => hrs r (List.mem_of_mem_take m)) (by omega)
  rw [List.take_append_drop, List.length_take, Nat.min_eq_left hj] at this
  exact this

/-! ## Lemmas on a position that wraps -/

theorem to_int32_parity (n : Int) : to_int32 n % 2 = n % 2 ∧ to_int32 n < 2147483648 := by
  unfold to_int32
  constructor
  · split <;> omega
  · split <;> omega

theorem le_decode_even (l : List Nat) (hl : ∀ b ∈ l, b % 2 = 0) : le_decode l % 2 = 0 := by
  cases l with
  | nil => rfl
  | cons b bs =>
    have := hl b (List.mem_cons_self _ _)
    simp only [le_decode]
    omega

theorem stream_even_qfread (file : Option FILE) (n : Nat) (hf : stream_even file) :
    stream_even (qfread file n).2 ∧ ∀ b ∈ (qfread file n).1, b % 2 = 0 := by
  unfold qfread
  cases file with
  | none =>
    refine ⟨?_, ?_⟩
    · intro F e
      exact absurd e (by simp)
    · intro b m
      exact absurd m (by simp)
  | some G =>
    refine ⟨?_, ?_⟩
    · intro F e
      simp only [Option.some.injEq] at e
      subst e
      exact hf G rfl
    · intro b m
      exact hf G rfl b (List.mem_of_mem_drop (List.mem_of_mem_take m))

theorem ida_file.read_value_even (f : ida_file) (w : Nat) (junk : List Nat)
    (hj : ∀ b ∈ junk, b % 2 = 0) (hf : stream_even f.file) :
    (f.read w junk).1 % 2 = 0 := by
  unfold ida_file.read
  simp only
  apply le_decode_even
  intro b m
  rcases poke_mem _ _ _ _ m with m1 | m1
  · exact hj b m1
  · exact (stream_even_qfread f.file w hf).2 b m1

/-- One iteration of the loop body keeps an even position even, whatever it wraps to. -/
theorem loop_body_parity (base uninit : Nat) (s : ida_file × Heap × List name_call)
    (hu : uninit % 2 = 0) (hf : stream_even s.1.file) (hp : s.1.pos % 2 = 0) :
    (loop_body base uninit s).1.size = s.1.size
    ∧ stream_even (loop_body base uninit s).1.file
    ∧ (loop_body base uninit s).1.pos % 2 = 0
    ∧ (loop_body base uninit s).1.pos < 2147483648 := by
  have hj2 : ∀ b ∈ List.replicate 2 uninit, b % 2 = 0 := fun b m => by
    rw [List.eq_of_mem_replicate m]
    exact hu
  obtain ⟨p1, s1, _, f1⟩ := ida_file.read_fields s.1 4 (List.replicate 4 uninit)
  obtain ⟨p2, s2, _, f2⟩ := ida_file.read_fields (s.1.read 4 (List.replicate 4 uninit)).2 2
    (List.replicate 2 uninit)
  have hb1 : stream_even (s.1.read 4 (List.replicate 4 uninit)).2.file := by
    rw [f1]
    exact (stream_even_qfread _ _ hf).1
  have hb2 : stream_even
      ((s.1.read 4 (List.replicate 4 uninit)).2.read 2 (List.replicate 2 uninit)).2.file := by
    rw [f2]
    exact (stream_even_qfread _ _ hb1).1
  have hn := ida_file.read_value_even (s.1.read 4 (List.replicate 4 uninit)).2 2
    (List.replicate 2 uninit) hj2 hb1
  have e1 : (s.1.read 4 (List.replicate 4 uninit)).2.pos % 2 = 0 := by
    rw [p1, (to_int32_parity _).1]
    omega
  have e2 : ((s.1.read 4 (List.replicate 4 uninit)).2.read 2 (List.replicate 2 uninit)).2.pos % 2
      = 0 := by
    rw [p2, (to_int32_parity _).1]
    omega
  have hbody : (loop_body base uninit s).1
      = (((s.1.read 4 (List.replicate 4 uninit)).2.read 2 (List.replicate 2 uninit)).2.read_string
          s.2.1
          ((s.1.read 4 (List.replicate 4 uninit)).2.read 2 (List.replicate 2 uninit)).1).2.1 :=
    rfl
  rw [hbody, ida_file.read_string_file]
  simp only
  refine ⟨by rw [s2, s1], (stream_even_qfread _ _ hb2).1, ?_, (to_int32_parity _).2⟩
  rw [(to_int32_parity _).1]
  omega

/-- On a stream of even bytes whose size is `2 ^ 31 - 1`, from an even position, with
even uninitialised bytes, the loop test never fails: the loop runs out of every fuel. -/
theorem run_loop_never_ends (base uninit : Nat) (hu : uninit % 2 = 0) :
    ∀ (fuel : Nat) (s : ida_file × Heap × List name_call),
      stream_even s.1.file → s.1.pos % 2 = 0 → s.1.pos < 2147483648 →
      s.1.size = 2147483647 →
      run_loop base uninit fuel s.1 s.2.1 s.2.2 = Option.none := by
  intro fuel
  induction fuel with
  | zero =>
    intro s _ hp hlt hs
    have hc : s.1.can_read_more = true := by
      unfold ida_file.can_read_more
      apply decide_eq_true
      omega
    rw [run_loop_zero, hc, if_pos rfl]
  | succ fuel ih =>
    intro s hf hp hlt hs
    have hc : s.1.can_read_more = true := by
      unfold ida_file.can_read_more
      apply decide_eq_true
      omega
    obtain ⟨b1, b2, b3, b4⟩ := loop_body_parity base uninit s hu hf hp
    rw [run_loop_succ, hc, if_pos rfl]
    exact ih (loop_body base uninit s) b2 b3 b4 (by rw [b1, hs])

/-- C20, as stated, fails on a resource of `2 ^ 31 - 1` bytes, a size the `int` size
holds: on the stream of `2147483647` zero bytes the position, which stays even, wraps
past the odd size without ever reaching it, so the loop has not ended after
`ceil(size / 6) = 357913942` iterations and ends after no number of iterations. -/
theorem loop_does_not_end :
    run_loop 4194304 204 357913942 (stream_at (List.replicate 2147483647 0) 0) heap0 []
      = Option.none
    ∧ ¬ ∃ fuel, (run_loop 4194304 204 fuel (stream_at (List.replicate 2147483647 0) 0)
        heap0 []).isSome = true := by
  have hev : stream_even (stream_at (List.replicate 2147483647 0) 0).file := by
    intro F e
    simp only [stream_at, Option.some.injEq] at e
    subst e
    intro b m
    rw [List.eq_of_mem_replicate m]
  have hsz : (stream_at (List.replicate 2147483647 0) 0).size = 2147483647 := by
    show (((List.replicate 2147483647 0).length : Nat) : Int) = 2147483647
    rw [List.length_replicate]
    rfl
  have hpos : (stream_at (List.replicate 2147483647 0) 0).pos = 0 := rfl
  have hnone : ∀ fuel, run_loop 4194304 204 fuel (stream_at (List.replicate 2147483647 0) 0)
      heap0 [] = Option.none := fun fuel =>
    run_loop_never_ends 4194304 204 (by decide) fuel
      (stream_at (List.replicate 2147483647 0) 0, heap0, []) hev
      (by rw [hpos]; rfl) (by rw [hpos]; decide) hsz
  refine ⟨hnone 357913942, ?_⟩
  rintro ⟨fuel, hfuel⟩
  rw [hnone fuel] at hfuel
  exact absurd hfuel (by simp)

/-- C20, amended: termination of the loop.  On every stream of bytes whose size leaves
the `int` position room for one more record (`size + 65541 < 2 ^ 31`), the loop ends
after `j` iterations for some `j` that is at most `ceil(size / 6)`: each of these
iterations adds at least 6 to `pos`, `size` stays the size of the stream, and the loop
ends with `size <= pos`.  When the stream is the encoding of the records `rs` followed by
a proper, non-empty part of the encoding of one more record, the loop ends after one
iteration more than the records in `rs` with `pos > size`. -/
theorem loop_terminates (base uninit : Nat) (h : Heap) (data : List Nat)
    (hb : ∀ b ∈ data, b < 256) (hu : uninit < 256)
    (hsize : data.length + 65541 < 2147483648) :
    (∃ j, j ≤ (data.length + 5) / 6
      ∧ (∀ i, i < j →
          (Nat.iterate (loop_body base uninit) i (stream_at data 0, h, [])).1.pos + 6
            ≤ (Nat.iterate (loop_body base uninit) (i + 1) (stream_at data 0, h, [])).1.pos)
      ∧ (∀ fuel, j ≤ fuel →
          run_loop base uninit fuel (stream_at data 0) h []
            = some ((Nat.iterate (loop_body base uninit) j (stream_at data 0, h, [])).2.2,
                    (Nat.iterate (loop_body base uninit) j (stream_at data 0, h, [])).1,
                    (Nat.iterate (loop_body base uninit) j (stream_at data 0, h, [])).2.1))
      ∧ (data.length : Int)
          ≤ (Nat.iterate (loop_body base uninit) j (stream_at data 0, h, [])).1.pos
      ∧ (Nat.iterate (loop_body base uninit) j (stream_at data 0, h, [])).1.size
          = (data.length : Int))
    ∧ (∀ (rs : List record) (r : record) (k : Nat),
        data = encode_records rs ++ (encode_record r).take k →
        0 < k → k < (encode_record r).length →
        (∀ q ∈ rs, q.offset < 4294967296 ∧ q.name.length < 65536) →
        r.offset < 4294967296 → r.name.length < 65536 →
        (∀ fuel, rs.length + 1 ≤ fuel →
          run_loop base uninit fuel (stream_at data 0) h []
            = some
              ((Nat.iterate (loop_body base uninit) (rs.length + 1)
                  (stream_at data 0, h, [])).2.2,
               (Nat.iterate (loop_body base uninit) (rs.length + 1)
                  (stream_at data 0, h, [])).1,
               (Nat.iterate (loop_body base uninit) (rs.length + 1)
                  (stream_at data 0, h, [])).2.1))
        ∧ (data.length : Int)
            < (Nat.iterate (loop_body base uninit) (rs.length + 1)
                (stream_at data 0, h, [])).1.pos) := by
  have hsb : ∀ c : Nat, stream_bytes (stream_at data c).file := by
    intro c F e
    simp only [stream_at, Option.some.injEq] at e
    subst e
    exact hb
  constructor
  · obtain ⟨j, hj, hgo, hstop, hge, hsz⟩ := exists_exit base uninit (data.length : Int) hu
      (by omega) ((data.length + 5) / 6) (stream_at data 0, h, []) (hsb 0)
      (by simp [stream_at]) rfl (by simp [stream_at])
    exact ⟨j, hj, fun i hi => (hgo i hi).2,
      fun fuel hfuel => run_loop_eq_iterate base uninit j fuel (stream_at data 0, h, [])
        (fun i hi => (hgo i hi).1) hstop hfuel,
      hge, hsz⟩
  · intro rs r k he hk0 hk1 hrs hro hrn
    have hpl : ((encode_record r).take k).length = k := by
      rw [List.length_take]
      omega
    have hN : data.length = (encode_records rs).length + k := by
      rw [he, List.length_append, hpl]
    have hrl := encode_record_length r
    have hstate : ∀ i, i ≤ rs.length →
        ∃ g calls, Nat.iterate (loop_body base uninit) i (stream_at data 0, h, [])
            = (stream_at data (encode_records (rs.take i)).length, g, calls)
          ∧ (encode_records (rs.take i)).length ≤ (encode_records rs).length := by
      intro i hi
      obtain ⟨⟨g, calls, hs⟩, hle⟩ := iterate_at_tail base uninit h rs
        ((encode_record r).take k) i hi hrs (by omega)
      rw [← he] at hs
      exact ⟨g, calls, hs, hle⟩
    obtain ⟨g, calls, hlast, _⟩ := hstate rs.length (le_refl _)
    rw [List.take_length] at hlast
    have hdrop : data.drop (encode_records rs).length = (encode_record r).take k := by
      rw [he, List.drop_left]
    have hfinal : (data.length : Int)
          < (loop_body base uninit (stream_at data (encode_records rs).length, g, calls)).1.pos
        ∧ (loop_body base uninit (stream_at data (encode_records rs).length, g, calls)).1.size
          = (data.length : Int) := by
      by_cases hk6 : k < 6
      · obtain ⟨b1, _, b3, _⟩ := loop_body_step base uninit
          (stream_at data (encode_records rs).length, g, calls) hu (hsb _)
          (by simp [stream_at]) (by simp only [stream_at]; omega)
          (by simp only [stream_at]; omega)
        refine ⟨?_, b1⟩
        have hp : (stream_at data (encode_records rs).length, g, calls).1.pos
            = ((encode_records rs).length : Int) := rfl
        rw [hp] at b3
        omega
      · have hpart : (encode_record r).take k
            = le_encode 4 r.offset ++ (le_encode 2 r.name.length ++ r.name.take (k - 6)) := by
          unfold encode_record
          rw [List.take_append_eq_append_take, List.take_of_length_le (by
            simp only [List.length_append, le_encode_length]
            omega)]
          simp only [List.length_append, le_encode_length, List.append_assoc]
        have := loop_body_header base uninit data (encode_records rs).length r.offset
          r.name.length (r.name.take (k - 6)) g calls (by rw [hdrop, hpart]) hro hrn (by omega)
        refine ⟨?_, this.2⟩
        rw [this.1]
        omega
    have hsucc : Nat.iterate (loop_body base uninit) (rs.length + 1) (stream_at data 0, h, [])
        = loop_body base uninit (stream_at data (encode_records rs).length, g, calls) := by
      rw [Function.iterate_succ_apply', hlast]
    rw [hsucc]
    refine ⟨?_, hfinal.1⟩
    intro fuel hfuel
    have := run_loop_eq_iterate base uninit (rs.length + 1) fuel (stream_at data 0, h, [])
      (fun i hi => by
        obtain ⟨gi, ci, hs, hle⟩ := hstate i (by omega)
        rw [hs]
        show decide (((encode_records (rs.take i)).length : Int) < (data.length : Int)) = true
        apply decide_eq_true
        omega)
      (by
        rw [hsucc]
        show decide (_ < _) = false
        apply decide_eq_false
        rw [hfinal.2]
        omega)
      hfuel
    rw [hsucc] at this
    exact this

/-- Witness of C20 on the 8 bytes `10 00 00 00 03 00 46 6F`, the record (`0x10`, `Foo`)
cut after 8 of its 9 bytes: the loop ends after one iteration, within the bound of
`ceil(8 / 6) = 2`, with `pos > size`. -/
theorem loop_terminates_witness :
    (∃ j, j ≤ ([16, 0, 0, 0, 3, 0, 70, 111].length + 5) / 6
      ∧ (∀ i, i < j →
          (Nat.iterate (loop_body 4194304 204) i
              (stream_at [16, 0, 0, 0, 3, 0, 70, 111] 0, heap0, [])).1.pos + 6
            ≤ (Nat.iterate (loop_body 4194304 204) (i + 1)
                (stream_at [16, 0, 0, 0, 3, 0, 70, 111] 0, heap0, [])).1.pos)
      ∧ (∀ fuel, j ≤ fuel →
          run_loop 4194304 204 fuel (stream_at [16, 0, 0, 0, 3, 0, 70, 111] 0) heap0 []
            = some
              ((Nat.iterate (loop_body 4194304 204) j
                  (stream_at [16, 0, 0, 0, 3, 0, 70, 111] 0, heap0, [])).2.2,
               (Nat.iterate (loop_body 4194304 204) j
                  (stream_at [16, 0, 0, 0, 3, 0, 70, 111] 0, heap0, [])).1,
               (Nat.iterate (loop_body 4194304 204) j
                  (stream_at [16, 0, 0, 0, 3, 0, 70, 111] 0, heap0, [])).2.1))
      ∧ (([16, 0, 0, 0, 3, 0, 70, 111].length : Nat) : Int)
          ≤ (Nat.iterate (loop_body 4194304 204) j
              (stream_at [16, 0, 0, 0, 3, 0, 70, 111] 0, heap0, [])).1.pos
      ∧ (Nat.iterate (loop_body 4194304 204) j
            (stream_at [16, 0, 0, 0, 3, 0, 70, 111] 0, heap0, [])).1.size
          = (([16, 0, 0, 0, 3, 0, 70, 111].length : Nat) : Int))
    ∧ (([16, 0, 0, 0, 3, 0, 70, 111].length : Nat) : Int)
        < (Nat.iterate (loop_body 4194304 204) (([] : List record).length + 1)
            (stream_at [16, 0, 0, 0, 3, 0, 70, 111] 0, heap0, [])).1.pos :=
  ⟨(loop_terminates 4194304 204 heap0 [16, 0, 0, 0, 3, 0, 70, 111] (by decide) (by decide)
      (by decide)).1,
   ((loop_terminates 4194304 204 heap0 [16, 0, 0, 0, 3, 0, 70, 111] (by decide) (by decide)
      (by decide)).2 [] { offset := 16, name := [70, 111, 111] } 8 (by decide) (by decide)
      (by decide) (by decide) (by decide) (by decide)).2⟩

end IDAExec
